import Mathlib

set_option maxRecDepth 16000

/-!
Shallow embedding of `scpweave` (`src/main.rs`): a merger for SCP flux-level
floppy disk images.

Files are modelled as `List Nat` byte sequences (a real file's entries are
all `< 256`; every read primitive reduces entries `% 256`, which is the
identity on real byte values, so the model agrees with the Rust program on
every real file).  Machine integers are `Nat` with explicit `% 2^32` at the
points where the Rust code truncates (`as u32`, `u32::wrapping_add`).
Fallible operations return `Option` / `Except`; a Rust `unwrap` panic is the
`.panic` error, a failed `read_exact` / write is the `.ioError` error.
-/

/-! ### Byte-level primitives -/

/-- Little-endian encoding of a `u32` value as four bytes
(binrw `little` as used on every 32-bit field of the SCP structures). -/
def le32 (x : Nat) : List Nat :=
  [x % 256, x / 256 % 256, x / 65536 % 256, x / 16777216 % 256]

/-- `fn checksum(data: &[u8]) -> u32` (main.rs:64-70): fold of
`sum.wrapping_add(byte as u32)` over the bytes, starting from 0. -/
def checksum (data : List Nat) : Nat :=
  data.foldl (fun s b => (s + b) % 2 ^ 32) 0

/-- `read_exact` of `n` bytes at absolute position `p` of file `f`
(seek past EOF succeeds; the read fails iff fewer than `n` bytes remain). -/
def readN (f : List Nat) (p n : Nat) : Option (List Nat) :=
  if p + n ≤ f.length then some (((f.drop p).take n).map (· % 256)) else none

/-- Overwrite bytes of `f` starting at position `p` with `d`, extending the
file if the write runs past the current end (seek + `write_all`). -/
def writeAt (f : List Nat) (p : Nat) (d : List Nat) : List Nat :=
  f.take p ++ d ++ f.drop (p + d.length)

/-! ### Data model (main.rs:23-62) -/

/-- `struct ScpRev` (main.rs:49-56): all three fields `u32`. -/
structure ScpRev where
  duration : Nat
  num_bitcells : Nat
  offset : Nat
deriving DecidableEq

/-- `struct ScpTrack` (main.rs:40-47): magic `TRK`, `track_number: u8`,
`revs: Vec<ScpRev>` whose length is the contextual `rev_count`. -/
structure ScpTrack where
  track_number : Nat
  revs : List ScpRev
deriving DecidableEq

/-- `struct ScpHeader` (main.rs:23-38): magic `SCP`, nine `u8` fields,
`checksum: u32`, `track_data_headers: [u32; 168]` (modelled as a list whose
length is 168 for every decoded header). -/
structure ScpHeader where
  version : Nat
  disk_type : Nat
  rev_count : Nat
  start_track : Nat
  end_track : Nat
  flags : Nat
  bitcell_time : Nat
  heads : Nat
  resolution : Nat
  checksum : Nat
  track_data_headers : List Nat
deriving DecidableEq

/-- `struct Scp` (main.rs:58-62): the backing file, decoded header and the
168 optional decoded tracks. -/
structure Scp where
  file : List Nat
  header : ScpHeader
  tracks : List (Option ScpTrack)
deriving DecidableEq

/-! ### Binary codec: serialization (binrw `BinWrite` for the structures) -/

/-- Byte layout of one `ScpRev` record (12 bytes, little-endian). -/
def writeRev (r : ScpRev) : List Nat :=
  le32 r.duration ++ le32 r.num_bitcells ++ le32 r.offset

/-- Byte layout of an `ScpTrack`: magic `TRK` (0x54 0x52 0x4B), the track
number byte, then the revolution records in order. -/
def writeTrack (t : ScpTrack) : List Nat :=
  [0x54, 0x52, 0x4B, t.track_number % 256] ++ (t.revs.map writeRev).flatten

/-- Byte layout of an `ScpHeader`: magic `SCP` (0x53 0x43 0x50), the nine
single-byte fields, the 32-bit checksum at offset 0x0C, then the
`track_data_headers` array starting at offset 0x10. -/
def writeHeader (h : ScpHeader) : List Nat :=
  [0x53, 0x43, 0x50, h.version % 256, h.disk_type % 256, h.rev_count % 256,
   h.start_track % 256, h.end_track % 256, h.flags % 256, h.bitcell_time % 256,
   h.heads % 256, h.resolution % 256] ++
  le32 h.checksum ++ (h.track_data_headers.map le32).flatten

/-! ### Binary codec: decoding (binrw `BinRead`), consuming from the front
of the remaining byte list; `none` is binrw's error (bad magic or EOF). -/

/-- Read one byte. -/
def parseU8 : List Nat → Option (Nat × List Nat)
  | b :: rest => some (b % 256, rest)
  | [] => none

/-- Read one little-endian `u32`. -/
def parseU32 : List Nat → Option (Nat × List Nat)
  | b0 :: b1 :: b2 :: b3 :: rest =>
      some (b0 % 256 + 256 * (b1 % 256) + 65536 * (b2 % 256) +
            16777216 * (b3 % 256), rest)
  | _ => none

/-- Decode the little-endian `u32` stored at byte position `p` of `f`. -/
def readU32 (f : List Nat) (p : Nat) : Option Nat :=
  (parseU32 (f.drop p)).map Prod.fst

/-- Read `n` consecutive little-endian `u32` values. -/
def parseU32s : Nat → List Nat → Option (List Nat × List Nat)
  | 0, l => some ([], l)
  | n + 1, l =>
    (parseU32 l).bind fun x =>
      (parseU32s n x.2).map fun xs => (x.1 :: xs.1, xs.2)

/-- Check a magic tag at the front of the stream. -/
def parseMagic (m l : List Nat) : Option (List Nat) :=
  if (l.take m.length).map (· % 256) = m ∧ m.length ≤ l.length then
    some (l.drop m.length)
  else none

/-- Decode one `ScpRev` record. -/
def parseRev (l : List Nat) : Option (ScpRev × List Nat) :=
  (parseU32 l).bind fun d =>
    (parseU32 d.2).bind fun n =>
      (parseU32 n.2).map fun o => (⟨d.1, n.1, o.1⟩, o.2)

/-- Decode `n` consecutive `ScpRev` records. -/
def parseRevs : Nat → List Nat → Option (List ScpRev × List Nat)
  | 0, l => some ([], l)
  | n + 1, l =>
    (parseRev l).bind fun r =>
      (parseRevs n r.2).map fun rs => (r.1 :: rs.1, rs.2)

/-- `ScpTrack::read_args(stream, (rev_count,))`: magic `TRK`, the track
number, then `rev_count` revolution records. -/
def parseTrackL (rev_count : Nat) (l : List Nat) : Option ScpTrack :=
  (parseMagic [0x54, 0x52, 0x4B] l).bind fun l1 =>
    (parseU8 l1).bind fun tn =>
      (parseRevs rev_count tn.2).map fun rs => ⟨tn.1, rs.1⟩

/-- `ScpHeader::read(stream)`: magic `SCP`, nine single-byte fields, the
32-bit checksum, then the 168-entry offset array. -/
def parseHeaderL (l : List Nat) : Option ScpHeader :=
  (parseMagic [0x53, 0x43, 0x50] l).bind fun l1 =>
  (parseU8 l1).bind fun version =>
  (parseU8 version.2).bind fun disk_type =>
  (parseU8 disk_type.2).bind fun rev_count =>
  (parseU8 rev_count.2).bind fun start_track =>
  (parseU8 start_track.2).bind fun end_track =>
  (parseU8 end_track.2).bind fun flags =>
  (parseU8 flags.2).bind fun bitcell_time =>
  (parseU8 bitcell_time.2).bind fun heads =>
  (parseU8 heads.2).bind fun resolution =>
  (parseU32 resolution.2).bind fun cs =>
  (parseU32s 168 cs.2).map fun tdh =>
    ⟨version.1, disk_type.1, rev_count.1, start_track.1, end_track.1, flags.1,
     bitcell_time.1, heads.1, resolution.1, cs.1, tdh.1⟩

/-! ### Image loader (main.rs:83-100) -/

/-- The two ways loading an input can abort (main.rs:84-93: in the Rust
source both are process aborts; the spec names them `FormatError` and
`UnsupportedFormat`). -/
inductive LoadErr where
  | formatError
  | unsupportedFormat
deriving DecidableEq

/-- The per-slot track decoding loop (main.rs:90-98): for each header
offset, `0` means no track, otherwise seek there and decode a track using
the header's `rev_count`. -/
def loadTracks (f : List Nat) (rev_count : Nat) :
    List Nat → Option (List (Option ScpTrack))
  | [] => some []
  | off :: offs =>
    if off ≠ 0 then
      match parseTrackL rev_count (f.drop off) with
      | none => none
      | some t =>
        match loadTracks f rev_count offs with
        | none => none
        | some ts => some (some t :: ts)
    else
      match loadTracks f rev_count offs with
      | none => none
      | some ts => some (none :: ts)

/-- `load`: decode the header at file start, reject a non-zero
`bitcell_time`, then decode every track slot (main.rs:83-99). -/
def loadScp (f : List Nat) : Except LoadErr Scp :=
  match parseHeaderL f with
  | none => .error .formatError
  | some h =>
    if h.bitcell_time ≠ 0 then .error .unsupportedFormat
    else
      match loadTracks f h.rev_count h.track_data_headers with
      | none => .error .formatError
      | some ts => .ok ⟨f, h, ts⟩

/-! ### Selection table (main.rs:78-82) -/

/-- The `-t` override loop (main.rs:78-82): starting from `vec![0; 168]`,
each (already split and parsed) parameter `(c₁, c₂, v)` stores `v` at index
`c₁ + c₂ * 2`; an out-of-range index is a panic (`none`). -/
def trackParamsTable (overrides : List (Nat × Nat × Nat)) : Option (List Nat) :=
  overrides.foldlM
    (fun t p =>
      if p.1 + p.2.1 * 2 < 168 then some (t.set (p.1 + p.2.1 * 2) p.2.2)
      else none)
    (List.replicate 168 0)

/-! ### Merge engine (main.rs:102-141) -/

/-- How a merge run can abort: `.panic` is a Rust `unwrap` panic or
out-of-bounds index, `.ioError` a failed read/write. -/
inductive MergeErr where
  | panic
  | ioError
deriving DecidableEq

/-- The mutable state of the merge loop: the output file bytes so far, the
running checksum `sum`, and `scp_out_header.track_data_headers`. -/
structure MergeState where
  out : List Nat
  sum : Nat
  hdrs : List Nat
deriving DecidableEq

/-- `&mut scp_in_files[track_params[i] as usize]` (main.rs:112): indexing
the two-element source vector; any value other than 0 or 1 panics. -/
def pickSrc (s0 s1 : Scp) (v : Nat) : Option Scp :=
  if v = 0 then some s0 else if v = 1 then some s1 else none

/-- Fetch one revolution's flux payload from the source file
(main.rs:119-122): seek to `track_data_headers[i] + rev.offset` and read
exactly `num_bitcells * 2` bytes. -/
def revFlux (src : Scp) (i : Nat) (r : ScpRev) : Option (List Nat) :=
  readN src.file (src.header.track_data_headers.getD i 0 + r.offset)
    (r.num_bitcells * 2)

/-- The inner revolution loop (main.rs:117-127).  `thp` is
`track_header_pos`; `out` is the output file (the write position is its
end); `sum` the running checksum.  Returns the extended output, the new
running checksum and the revolution records now carrying their rewritten
offsets `(position - track_header_pos) as u32`. -/
def revLoop (src : Scp) (i thp : Nat) :
    List ScpRev → List Nat → Nat → Option (List Nat × Nat × List ScpRev)
  | [], out, sum => some (out, sum, [])
  | r :: rs, out, sum =>
    match revFlux src i r with
    | none => none
    | some flux =>
      match revLoop src i thp rs (out ++ flux) ((sum + checksum flux) % 2 ^ 32) with
      | none => none
      | some (out', sum', rs') =>
        some (out', sum', { r with offset := (out.length - thp) % 2 ^ 32 } :: rs')

/-- One iteration of the slot loop (main.rs:107-134) for slot `i`.  An
absent slot in source 0 only zeroes the output header entry; otherwise the
selected source's track is cloned, written with stale offsets, its flux
payloads are appended while the offsets are rewritten, and the corrected
track header is written back in place. -/
def slotStep (s0 s1 : Scp) (sel : List Nat) (st : MergeState) (i : Nat) :
    Except MergeErr MergeState :=
  match s0.tracks.getD i none with
  | none => .ok { st with hdrs := st.hdrs.set i 0 }
  | some _ =>
    match pickSrc s0 s1 (sel.getD i 0) with
    | none => .error .panic
    | some src =>
      match src.tracks.getD i none with
      | none => .error .panic
      | some tr =>
        let thp := st.out.length
        match revLoop src i thp tr.revs (st.out ++ writeTrack tr) st.sum with
        | none => .error .ioError
        | some (out2, sum2, revs2) =>
          let tb := writeTrack { tr with revs := revs2 }
          .ok { out := writeAt out2 thp tb,
                sum := (sum2 + checksum tb) % 2 ^ 32,
                hdrs := st.hdrs.set i (thp % 2 ^ 32) }

/-- State before the slot loop (main.rs:102-106): the output header is
source 0's header with a zeroed checksum, already written to the output. -/
def initState (s0 : Scp) : MergeState :=
  { out := writeHeader { s0.header with checksum := 0 },
    sum := 0,
    hdrs := s0.header.track_data_headers }

/-- The slot loop after `n` iterations (`for i in 0..168`, main.rs:107). -/
def mergeFold (s0 s1 : Scp) (sel : List Nat) : Nat → Except MergeErr MergeState
  | 0 => .ok (initState s0)
  | n + 1 => (mergeFold s0 s1 sel n).bind fun st => slotStep s0 s1 sel st n

/-- The complete merge (main.rs:102-141): run the 168 slot iterations, fold
in the checksum of the corrected header's bytes from offset 0x10, store the
total in the header's checksum field, and write the final header back over
the placeholder at file start.  Returns the bytes of the output file. -/
def mergeCore (s0 s1 : Scp) (sel : List Nat) : Except MergeErr (List Nat) :=
  (mergeFold s0 s1 sel 168).map fun st =>
    let hcs := { s0.header with checksum := 0, track_data_headers := st.hdrs }
    let total := (st.sum + checksum ((writeHeader hcs).drop 16)) % 2 ^ 32
    writeAt st.out 0 (writeHeader { hcs with checksum := total })

/-- Abort causes of a whole run. -/
inductive RunErr where
  | formatError
  | unsupportedFormat
  | mergePanic
  | mergeIo
deriving DecidableEq

/-- Map a loader abort to a run abort. -/
def LoadErr.toRun : LoadErr → RunErr
  | .formatError => .formatError
  | .unsupportedFormat => .unsupportedFormat

/-- A whole run of the program on two input files and a selection table:
load both inputs (in order), then merge.  Output bytes exist only when
every stage succeeds; any load failure aborts before the output file
receives a single byte (main.rs:83-104: inputs are loaded before
`File::create`). -/
def run (f0 f1 : List Nat) (sel : List Nat) : Except RunErr (List Nat) :=
  match loadScp f0 with
  | .error e => .error e.toRun
  | .ok s0 =>
    match loadScp f1 with
    | .error e => .error e.toRun
    | .ok s1 =>
      match mergeCore s0 s1 sel with
      | .error .panic => .error .mergePanic
      | .error .ioError => .error .mergeIo
      | .ok out => .ok out

/-! ### Basic lemmas: checksum -/

theorem checksum_foldl (l : List Nat) (a : Nat) :
    l.foldl (fun s b => (s + b) % 2 ^ 32) (a % 2 ^ 32) = (a + l.sum) % 2 ^ 32 := by
  induction l generalizing a with
  | nil => simp
  | cons b l ih =>
    have h : (a % 2 ^ 32 + b) % 2 ^ 32 = (a + b) % 2 ^ 32 := by omega
    calc (b :: l).foldl (fun s b => (s + b) % 2 ^ 32) (a % 2 ^ 32)
        = l.foldl (fun s b => (s + b) % 2 ^ 32) ((a + b) % 2 ^ 32) := by
          simp [List.foldl, h]
      _ = (a + b + l.sum) % 2 ^ 32 := ih (a + b)
      _ = (a + (b :: l).sum) % 2 ^ 32 := by simp [List.sum_cons, Nat.add_assoc]

/-- The checksum of a byte span is the plain sum of its entries modulo 2³². -/
theorem checksum_eq_sum (l : List Nat) : checksum l = l.sum % 2 ^ 32 := by
  have := checksum_foldl l 0
  simpa [checksum] using this


/-! ### Basic lemmas: sizes of the serialized structures -/

theorem le32_length (x : Nat) : (le32 x).length = 4 := rfl

theorem writeRev_length (r : ScpRev) : (writeRev r).length = 12 := rfl

theorem flatten_writeRev_length (rs : List ScpRev) :
    ((rs.map writeRev).flatten).length = 12 * rs.length := by
  induction rs with
  | nil => simp
  | cons r rs ih => simp [ih, writeRev_length, Nat.mul_succ, Nat.add_comm]

theorem writeTrack_length (t : ScpTrack) :
    (writeTrack t).length = 4 + 12 * t.revs.length := by
  simp only [writeTrack, List.length_append, flatten_writeRev_length,
    List.length_cons, List.length_nil]

theorem flatten_le32_length (xs : List Nat) :
    ((xs.map le32).flatten).length = 4 * xs.length := by
  induction xs with
  | nil => simp
  | cons x xs ih => simp [ih, le32_length, Nat.mul_succ, Nat.add_comm]

theorem writeHeader_length (h : ScpHeader) :
    (writeHeader h).length = 16 + 4 * h.track_data_headers.length := by
  simp only [writeHeader, List.length_append, flatten_le32_length, le32_length,
    List.length_cons, List.length_nil]

/-- Two tracks with the same number of revolutions serialize to the same
number of bytes: the in-place track-header rewrite never resizes. -/
theorem writeTrack_length_eq {t t' : ScpTrack}
    (h : t.revs.length = t'.revs.length) :
    (writeTrack t).length = (writeTrack t').length := by
  simp [writeTrack_length, h]

/-! ### Basic lemmas: byte ranges -/

/-- `l` is a sequence of bytes (every entry fits in one byte). -/
def Bytes (l : List Nat) : Prop := ∀ b ∈ l, b < 256

instance (l : List Nat) : Decidable (Bytes l) := by
  unfold Bytes; infer_instance

theorem Bytes.append {a b : List Nat} (ha : Bytes a) (hb : Bytes b) :
    Bytes (a ++ b) := by
  intro x hx
  rcases List.mem_append.mp hx with h | h
  · exact ha x h
  · exact hb x h

theorem le32_bytes (x : Nat) : Bytes (le32 x) := by
  intro b hb
  simp [le32] at hb
  rcases hb with h | h | h | h <;> subst h <;> exact Nat.mod_lt _ (by norm_num)

theorem writeRev_bytes (r : ScpRev) : Bytes (writeRev r) :=
  ((le32_bytes r.duration).append (le32_bytes r.num_bitcells)).append
    (le32_bytes r.offset)

theorem Bytes.flatten {ls : List (List Nat)} (h : ∀ l ∈ ls, Bytes l) :
    Bytes ls.flatten := by
  intro b hb
  rcases List.mem_flatten.mp hb with ⟨l, hl, hbl⟩
  exact h l hl b hbl

theorem writeTrack_bytes (t : ScpTrack) : Bytes (writeTrack t) := by
  unfold writeTrack
  refine Bytes.append ?_ (Bytes.flatten ?_)
  · intro b hb
    simp only [List.mem_cons, List.not_mem_nil, or_false] at hb
    rcases hb with rfl | rfl | rfl | rfl <;> omega
  · intro l hl
    rcases List.mem_map.mp hl with ⟨r, _, rfl⟩
    exact writeRev_bytes r

theorem writeHeader_bytes (h : ScpHeader) : Bytes (writeHeader h) := by
  unfold writeHeader
  refine (Bytes.append (Bytes.append ?_ (le32_bytes h.checksum)) (Bytes.flatten ?_))
  · intro b hb
    simp only [List.mem_cons, List.not_mem_nil, or_false] at hb
    rcases hb with rfl | rfl | rfl | rfl | rfl | rfl | rfl | rfl | rfl | rfl | rfl | rfl <;> omega
  · intro l hl
    rcases List.mem_map.mp hl with ⟨x, _, rfl⟩
    exact le32_bytes x

theorem readN_bytes {f : List Nat} {p n : Nat} {l : List Nat}
    (h : readN f p n = some l) : Bytes l := by
  unfold readN at h
  split at h
  · cases h
    intro b hb
    rcases List.mem_map.mp hb with ⟨x, _, rfl⟩
    exact Nat.mod_lt _ (by norm_num)
  · cases h

/-- Reducing each entry of a byte sequence modulo 256 is the identity. -/
theorem map_mod_of_bytes {l : List Nat} (h : Bytes l) :
    l.map (· % 256) = l := by
  induction l with
  | nil => rfl
  | cons b l ih =>
    have hb : b < 256 := h b (List.mem_cons_self _ _)
    have hl : Bytes l := fun x hx => h x (List.mem_cons_of_mem _ hx)
    simp [Nat.mod_eq_of_lt hb, ih hl]

/-- A successful `readN` returns exactly `n` bytes. -/
theorem readN_length {f : List Nat} {p n : Nat} {l : List Nat}
    (h : readN f p n = some l) : l.length = n := by
  unfold readN at h
  split at h
  · cases h
    rename_i hle
    simp [List.length_take, List.length_drop]
    omega
  · cases h

/-! ### Well-formedness of decoded structures (field ranges of `u8`/`u32`) -/

/-- Field ranges of a decoded revolution record. -/
def ScpRev.WF (r : ScpRev) : Prop :=
  r.duration < 2 ^ 32 ∧ r.num_bitcells < 2 ^ 32 ∧ r.offset < 2 ^ 32

instance (r : ScpRev) : Decidable r.WF := by unfold ScpRev.WF; infer_instance

/-- Field ranges of a decoded track. -/
def ScpTrack.WF (t : ScpTrack) : Prop :=
  t.track_number < 256 ∧ ∀ r ∈ t.revs, r.WF

instance (t : ScpTrack) : Decidable t.WF := by unfold ScpTrack.WF; infer_instance

/-- Field ranges of a decoded header, including the fixed 168-entry length
of the offset array. -/
def ScpHeader.WF (h : ScpHeader) : Prop :=
  h.version < 256 ∧ h.disk_type < 256 ∧ h.rev_count < 256 ∧
  h.start_track < 256 ∧ h.end_track < 256 ∧ h.flags < 256 ∧
  h.bitcell_time < 256 ∧ h.heads < 256 ∧ h.resolution < 256 ∧
  h.checksum < 2 ^ 32 ∧ h.track_data_headers.length = 168 ∧
  ∀ x ∈ h.track_data_headers, x < 2 ^ 32

instance (h : ScpHeader) : Decidable h.WF := by unfold ScpHeader.WF; infer_instance

/-! ### Codec round trips: decoding recovers what serialization wrote -/

theorem parseU32_le32 (x : Nat) (rest : List Nat) :
    parseU32 (le32 x ++ rest) = some (x % 2 ^ 32, rest) := by
  show some _ = some _
  congr 1
  refine Prod.ext ?_ rfl
  show x % 256 % 256 + 256 * (x / 256 % 256 % 256) + 65536 * (x / 65536 % 256 % 256)
      + 16777216 * (x / 16777216 % 256 % 256) = x % 2 ^ 32
  omega

theorem parseU8_cons_mod (v : Nat) (rest : List Nat) :
    parseU8 (v % 256 :: rest) = some (v % 256, rest) := by
  simp [parseU8, Nat.mod_mod_of_dvd]

theorem parseMagic_append {m : List Nat} (hm : Bytes m) (rest : List Nat) :
    parseMagic m (m ++ rest) = some rest := by
  unfold parseMagic
  rw [if_pos]
  · rw [List.drop_left]
  · constructor
    · rw [List.take_left, map_mod_of_bytes hm]
    · simp

/-- Mask a revolution record's fields to their `u32` ranges (what decoding
its serialized bytes recovers). -/
def maskRev (r : ScpRev) : ScpRev :=
  ⟨r.duration % 2 ^ 32, r.num_bitcells % 2 ^ 32, r.offset % 2 ^ 32⟩

theorem maskRev_eq_of_wf {r : ScpRev} (h : r.WF) : maskRev r = r := by
  cases r with
  | mk d n o =>
    obtain ⟨h1, h2, h3⟩ := h
    dsimp only at h1 h2 h3
    simp only [maskRev, ScpRev.mk.injEq]
    refine ⟨?_, ?_, ?_⟩ <;> omega

theorem map_maskRev_eq {rs : List ScpRev} (h : ∀ r ∈ rs, r.WF) :
    rs.map maskRev = rs := by
  induction rs with
  | nil => rfl
  | cons r rs ih =>
    rw [List.map_cons, maskRev_eq_of_wf (h r (List.mem_cons_self _ _)),
      ih fun x hx => h x (List.mem_cons_of_mem _ hx)]

theorem parseRev_writeRev (r : ScpRev) (rest : List Nat) :
    parseRev (writeRev r ++ rest) = some (maskRev r, rest) := by
  unfold parseRev writeRev
  rw [List.append_assoc, List.append_assoc, parseU32_le32, Option.some_bind]
  dsimp only
  rw [parseU32_le32, Option.some_bind]
  dsimp only
  rw [parseU32_le32, Option.map_some']
  rfl

theorem parseRevs_flatten {rs : List ScpRev} {n : Nat} (h : rs.length = n)
    (rest : List Nat) :
    parseRevs n ((rs.map writeRev).flatten ++ rest) =
      some (rs.map maskRev, rest) := by
  induction rs generalizing n with
  | nil => cases h; simp [parseRevs]
  | cons r rs ih =>
    cases h
    show parseRevs (rs.length + 1) _ = _
    unfold parseRevs
    rw [List.map_cons, List.flatten_cons, List.append_assoc, parseRev_writeRev,
      Option.some_bind]
    dsimp only
    rw [ih rfl, Option.map_some']
    rfl

theorem parseTrackL_writeTrack {t : ScpTrack} (hwf : t.WF) (rest : List Nat) :
    parseTrackL t.revs.length (writeTrack t ++ rest) = some t := by
  obtain ⟨htn, hrevs⟩ := hwf
  cases t with
  | mk tn revs =>
    unfold parseTrackL writeTrack
    rw [show ([0x54, 0x52, 0x4B, tn % 256] : List Nat) =
        [0x54, 0x52, 0x4B] ++ [tn % 256] from rfl]
    rw [List.append_assoc, List.append_assoc, parseMagic_append (by decide),
      Option.some_bind]
    dsimp only
    rw [List.singleton_append, parseU8_cons_mod, Option.some_bind]
    dsimp only
    rw [parseRevs_flatten rfl, Option.map_some']
    dsimp only
    rw [map_maskRev_eq hrevs, Nat.mod_eq_of_lt htn]

theorem parseU32s_flatten {xs : List Nat} {n : Nat} (h : xs.length = n)
    (rest : List Nat) :
    parseU32s n ((xs.map le32).flatten ++ rest) =
      some (xs.map (· % 2 ^ 32), rest) := by
  induction xs generalizing n with
  | nil => cases h; simp [parseU32s]
  | cons x xs ih =>
    cases h
    show parseU32s (xs.length + 1) _ = _
    unfold parseU32s
    rw [List.map_cons, List.flatten_cons, List.append_assoc, parseU32_le32,
      Option.some_bind]
    dsimp only
    rw [ih rfl, Option.map_some']
    rfl

theorem map_mod32_eq {xs : List Nat} (h : ∀ x ∈ xs, x < 2 ^ 32) :
    xs.map (· % 2 ^ 32) = xs := by
  induction xs with
  | nil => rfl
  | cons y ys ihy =>
    rw [List.map_cons, Nat.mod_eq_of_lt (h y (List.mem_cons_self _ _)),
      ihy fun z hz => h z (List.mem_cons_of_mem _ hz)]

theorem parseHeaderL_writeHeader {h : ScpHeader} (hwf : h.WF) (rest : List Nat) :
    parseHeaderL (writeHeader h ++ rest) = some h := by
  obtain ⟨h1, h2, h3, h4, h5, h6, h7, h8, h9, h10, h11, h12⟩ := hwf
  cases h with
  | mk version disk_type rev_count start_track end_track flags bitcell_time
      heads resolution cs tdh =>
    dsimp only at h1 h2 h3 h4 h5 h6 h7 h8 h9 h10 h11 h12
    unfold parseHeaderL writeHeader
    rw [show ([0x53, 0x43, 0x50, version % 256, disk_type % 256, rev_count % 256,
        start_track % 256, end_track % 256, flags % 256, bitcell_time % 256,
        heads % 256, resolution % 256] : List Nat) =
        [0x53, 0x43, 0x50] ++ [version % 256, disk_type % 256, rev_count % 256,
        start_track % 256, end_track % 256, flags % 256, bitcell_time % 256,
        heads % 256, resolution % 256] from rfl]
    rw [List.append_assoc, List.append_assoc, List.append_assoc,
      parseMagic_append (by decide), Option.some_bind]
    dsimp only
    rw [show ∀ (l : List Nat), ([version % 256, disk_type % 256, rev_count % 256,
        start_track % 256, end_track % 256, flags % 256, bitcell_time % 256,
        heads % 256, resolution % 256] : List Nat) ++ l
        = version % 256 :: (disk_type % 256 :: (rev_count % 256 ::
          (start_track % 256 :: (end_track % 256 :: (flags % 256 ::
          (bitcell_time % 256 :: (heads % 256 :: (resolution % 256 :: l))))))))
        from fun _ => rfl]
    rw [parseU8_cons_mod, Option.some_bind]; dsimp only
    rw [parseU8_cons_mod, Option.some_bind]; dsimp only
    rw [parseU8_cons_mod, Option.some_bind]; dsimp only
    rw [parseU8_cons_mod, Option.some_bind]; dsimp only
    rw [parseU8_cons_mod, Option.some_bind]; dsimp only
    rw [parseU8_cons_mod, Option.some_bind]; dsimp only
    rw [parseU8_cons_mod, Option.some_bind]; dsimp only
    rw [parseU8_cons_mod, Option.some_bind]; dsimp only
    rw [parseU8_cons_mod, Option.some_bind]; dsimp only
    rw [parseU32_le32, Option.some_bind]; dsimp only
    rw [parseU32s_flatten h11, Option.map_some']
    dsimp only
    rw [Nat.mod_eq_of_lt h1, Nat.mod_eq_of_lt h2, Nat.mod_eq_of_lt h3,
      Nat.mod_eq_of_lt h4, Nat.mod_eq_of_lt h5, Nat.mod_eq_of_lt h6,
      Nat.mod_eq_of_lt h7, Nat.mod_eq_of_lt h8, Nat.mod_eq_of_lt h9,
      Nat.mod_eq_of_lt h10]
    rw [map_mod32_eq h12]

/-! ### A reference view of the merge

`mergeFold` threads a byte buffer through seeks and in-place rewrites.  The
*plan* view below computes, per slot, the final track record, its start
position and its flux payloads, and assembles the output as a plain
concatenation of per-slot blocks.  `mergeFold_eq_plan` proves the two views
equal; every structural theorem about the merge is then read off the plan. -/

/-- All flux payloads of a revolution list, in order (`none` = some read
failed). -/
def fluxesOf (src : Scp) (i : Nat) : List ScpRev → Option (List (List Nat))
  | [] => some []
  | r :: rs =>
    match revFlux src i r with
    | none => none
    | some f =>
      match fluxesOf src i rs with
      | none => none
      | some fl => some (f :: fl)

/-- The offset rewrite performed by the revolution loop: revolution `j`'s
offset becomes `(pos_j - thp) as u32` where `pos_j` is the end-of-stream
position at which its payload is appended. -/
def revsRewrite (pos thp : Nat) : List ScpRev → List (List Nat) → List ScpRev
  | r :: rs, f :: fs =>
      { r with offset := (pos - thp) % 2 ^ 32 } :: revsRewrite (pos + f.length) thp rs fs
  | _, _ => []

/-- One slot of the plan: `none` when source 0 has no track there, otherwise
the rewritten track record together with its flux payloads.  Mirrors the
error behaviour of `slotStep` exactly. -/
def slotPlan (s0 s1 : Scp) (sel : List Nat) (i pos : Nat) :
    Except MergeErr (Option (ScpTrack × List (List Nat))) :=
  match s0.tracks.getD i none with
  | none => .ok none
  | some _ =>
    match pickSrc s0 s1 (sel.getD i 0) with
    | none => .error .panic
    | some src =>
      match src.tracks.getD i none with
      | none => .error .panic
      | some tr =>
        match fluxesOf src i tr.revs with
        | none => .error .ioError
        | some fl =>
          let tr' : ScpTrack :=
            { tr with revs := revsRewrite (pos + (writeTrack tr).length) pos tr.revs fl }
          .ok (some (tr', fl))

/-- Per-slot plan entries: start position, rewritten track, flux payloads. -/
abbrev Plan := List (Option (Nat × ScpTrack × List (List Nat)))

/-- The bytes one present slot contributes to the output: the (rewritten)
track header followed by the concatenated flux payloads. -/
def blockOf (e : Nat × ScpTrack × List (List Nat)) : List Nat :=
  writeTrack e.2.1 ++ e.2.2.flatten

/-- Everything written after the 688-byte header: the concatenation of the
present slots' blocks, in slot order. -/
def bodyOf (p : Plan) : List Nat :=
  ((p.filterMap id).map blockOf).flatten

/-- The header-array entry a slot's plan produces (`0` for an absent slot,
the track position truncated to `u32` otherwise). -/
def planVal : Option (Nat × ScpTrack × List (List Nat)) → Nat
  | none => 0
  | some e => e.1 % 2 ^ 32

/-- The output header's offset array after processing a plan prefix,
starting from slot index `j` (the merge updates one entry per slot). -/
def hdrsOf : List Nat → Nat → Plan → List Nat
  | hs, _, [] => hs
  | hs, j, o :: p => hdrsOf (hs.set j (planVal o)) (j + 1) p

/-- The plan after the first `n` slots; each present slot starts where the
body so far ends (688 bytes of header plus the previous blocks). -/
def planFold (s0 s1 : Scp) (sel : List Nat) : Nat → Except MergeErr Plan
  | 0 => .ok []
  | n + 1 =>
    (planFold s0 s1 sel n).bind fun p =>
      (slotPlan s0 s1 sel n (688 + (bodyOf p).length)).map fun o =>
        p ++ [o.map fun tf => (688 + (bodyOf p).length, tf)]

/-- The merge state a plan prefix denotes. -/
def stateOf (s0 : Scp) (p : Plan) : MergeState :=
  { out := writeHeader { s0.header with checksum := 0 } ++ bodyOf p,
    sum := (bodyOf p).sum % 2 ^ 32,
    hdrs := hdrsOf s0.header.track_data_headers 0 p }

/-! #### Supporting list lemmas -/

theorem getD_set_eq {α : Type} (l : List α) (i : Nat) (a d : α)
    (h : i < l.length) : (l.set i a).getD i d = a := by
  induction l generalizing i with
  | nil => simp at h
  | cons x xs ih =>
    cases i with
    | zero => rfl
    | succ i => exact ih i (by simpa using h)

theorem getD_set_ne {α : Type} (l : List α) (i m : Nat) (a d : α)
    (h : i ≠ m) : (l.set i a).getD m d = l.getD m d := by
  induction l generalizing i m with
  | nil => simp [List.set]
  | cons x xs ih =>
    cases i with
    | zero =>
      cases m with
      | zero => exact absurd rfl h
      | succ m => rfl
    | succ i =>
      cases m with
      | zero => rfl
      | succ m => exact ih i m fun hc => h (by rw [hc])

theorem bodyOf_append (p q : Plan) : bodyOf (p ++ q) = bodyOf p ++ bodyOf q := by
  simp [bodyOf, List.filterMap_append]

theorem bodyOf_none : bodyOf [none] = [] := rfl

theorem bodyOf_some (e : Nat × ScpTrack × List (List Nat)) :
    bodyOf [some e] = blockOf e := by
  simp [bodyOf, blockOf]

theorem hdrsOf_length (p : Plan) (hs : List Nat) (j : Nat) :
    (hdrsOf hs j p).length = hs.length := by
  induction p generalizing hs j with
  | nil => rfl
  | cons o p ih => simp [hdrsOf, ih]

theorem hdrsOf_append_single (p : Plan) (o : Option (Nat × ScpTrack × List (List Nat)))
    (hs : List Nat) (j : Nat) :
    hdrsOf hs j (p ++ [o]) = (hdrsOf hs j p).set (j + p.length) (planVal o) := by
  induction p generalizing hs j with
  | nil => simp [hdrsOf]
  | cons o' p ih =>
    show hdrsOf (hs.set j (planVal o')) (j + 1) (p ++ [o]) = _
    rw [ih]
    simp [hdrsOf, Nat.add_assoc, Nat.add_comm 1 p.length]

theorem hdrsOf_getD_lt (p : Plan) (hs : List Nat) (j m : Nat) (d : Nat)
    (h : m < j) : (hdrsOf hs j p).getD m d = hs.getD m d := by
  induction p generalizing hs j with
  | nil => rfl
  | cons o p ih =>
    show (hdrsOf (hs.set j (planVal o)) (j + 1) p).getD m d = _
    rw [ih _ _ (Nat.lt_succ_of_lt h), getD_set_ne _ _ _ _ _ (by omega)]

theorem hdrsOf_getD (p : Plan) (hs : List Nat) (k j : Nat)
    (hj : j < p.length) (hk : k + p.length ≤ hs.length) :
    (hdrsOf hs k p).getD (k + j) 0 = planVal (p.getD j none) := by
  induction p generalizing hs k j with
  | nil => simp at hj
  | cons o p ih =>
    cases j with
    | zero =>
      show (hdrsOf (hs.set k (planVal o)) (k + 1) p).getD k 0 = planVal o
      rw [hdrsOf_getD_lt _ _ _ _ _ (Nat.lt_succ_self k),
        getD_set_eq _ _ _ _ (by simp at hk; omega)]
    | succ j =>
      show (hdrsOf (hs.set k (planVal o)) (k + 1) p).getD (k + (j + 1)) 0 = _
      have : k + (j + 1) = (k + 1) + j := by omega
      rw [this, ih _ _ _ (by simpa using hj) (by simp at hk ⊢; omega)]
      rfl

theorem fluxesOf_length {src : Scp} {i : Nat} {revs : List ScpRev}
    {fl : List (List Nat)} (h : fluxesOf src i revs = some fl) :
    fl.length = revs.length := by
  induction revs generalizing fl with
  | nil => cases h; rfl
  | cons r rs ih =>
    unfold fluxesOf at h
    cases hf : revFlux src i r with
    | none => rw [hf] at h; cases h
    | some f =>
      rw [hf] at h
      cases hfl : fluxesOf src i rs with
      | none => rw [hfl] at h; cases h
      | some fl' =>
        rw [hfl] at h
        cases h
        simp [ih hfl]

theorem fluxesOf_forall₂ {src : Scp} {i : Nat} {revs : List ScpRev}
    {fl : List (List Nat)} (h : fluxesOf src i revs = some fl) :
    List.Forall₂ (fun r f => revFlux src i r = some f) revs fl := by
  induction revs generalizing fl with
  | nil => cases h; constructor
  | cons r rs ih =>
    unfold fluxesOf at h
    cases hf : revFlux src i r with
    | none => rw [hf] at h; cases h
    | some f =>
      rw [hf] at h
      cases hfl : fluxesOf src i rs with
      | none => rw [hfl] at h; cases h
      | some fl' =>
        rw [hfl] at h
        cases h
        exact List.Forall₂.cons hf (ih hfl)

theorem revsRewrite_length {revs : List ScpRev} {fl : List (List Nat)}
    (h : fl.length = revs.length) (pos thp : Nat) :
    (revsRewrite pos thp revs fl).length = revs.length := by
  induction revs generalizing fl pos with
  | nil => cases fl <;> simp [revsRewrite] at h ⊢
  | cons r rs ih =>
    cases fl with
    | nil => simp at h
    | cons f fs => simp [revsRewrite, ih (by simpa using h)]

theorem revsRewrite_map_duration {revs : List ScpRev} {fl : List (List Nat)}
    (h : fl.length = revs.length) (pos thp : Nat) :
    (revsRewrite pos thp revs fl).map ScpRev.duration = revs.map ScpRev.duration := by
  induction revs generalizing fl pos with
  | nil => cases fl <;> simp [revsRewrite] at h ⊢
  | cons r rs ih =>
    cases fl with
    | nil => simp at h
    | cons f fs => simp [revsRewrite, ih (by simpa using h)]

theorem revsRewrite_map_num_bitcells {revs : List ScpRev} {fl : List (List Nat)}
    (h : fl.length = revs.length) (pos thp : Nat) :
    (revsRewrite pos thp revs fl).map ScpRev.num_bitcells =
      revs.map ScpRev.num_bitcells := by
  induction revs generalizing fl pos with
  | nil => cases fl <;> simp [revsRewrite] at h ⊢
  | cons r rs ih =>
    cases fl with
    | nil => simp at h
    | cons f fs => simp [revsRewrite, ih (by simpa using h)]

/-- The faithful revolution loop equals its explicit description: the flux
payloads are appended in order, the running checksum absorbs their bytes,
and the returned records carry the rewritten offsets. -/
theorem revLoop_eq (src : Scp) (i thp : Nat) (revs : List ScpRev)
    (out : List Nat) (sum : Nat) (hs : sum < 2 ^ 32) :
    revLoop src i thp revs out sum =
      (fluxesOf src i revs).map fun fl =>
        (out ++ fl.flatten, (sum + fl.flatten.sum) % 2 ^ 32,
         revsRewrite out.length thp revs fl) := by
  induction revs generalizing out sum with
  | nil =>
    simp only [revLoop, fluxesOf, revsRewrite, Option.map_some', List.flatten_nil,
      List.append_nil, List.sum_nil, Nat.add_zero]
    rw [Nat.mod_eq_of_lt hs]
  | cons r rs ih =>
    unfold revLoop
    cases hf : revFlux src i r with
    | none => simp [fluxesOf, hf]
    | some f =>
      show (match revLoop src i thp rs (out ++ f) ((sum + checksum f) % 2 ^ 32) with
            | none => none
            | some (out', sum', rs') =>
              some (out', sum',
                { r with offset := (out.length - thp) % 2 ^ 32 } :: rs')) = _
      rw [ih (out ++ f) _ (Nat.mod_lt _ (by norm_num))]
      cases hfl : fluxesOf src i rs with
      | none => simp [fluxesOf, hf, hfl]
      | some fl =>
        simp only [fluxesOf, hf, hfl, Option.map_some']
        congr 1
        refine Prod.ext ?_ (Prod.ext ?_ ?_)
        · show (out ++ f) ++ fl.flatten = out ++ (f :: fl).flatten
          simp
        · show ((sum + checksum f) % 2 ^ 32 + fl.flatten.sum) % 2 ^ 32 =
            (sum + ((f :: fl).flatten).sum) % 2 ^ 32
          rw [checksum_eq_sum]
          have h1 : ((f :: fl).flatten).sum = f.sum + fl.flatten.sum := by simp
          rw [h1]
          omega
        · show { r with offset := (out.length - thp) % 2 ^ 32 } ::
              revsRewrite (out ++ f).length thp rs fl =
              revsRewrite out.length thp (r :: rs) (f :: fl)
          simp [revsRewrite]

/-- Rewriting a fixed-size span in place: overwriting the middle segment of
an append with equally many bytes replaces exactly that segment. -/
theorem writeAt_mid (a b c d : List Nat) (h : d.length = b.length) :
    writeAt (a ++ b ++ c) a.length d = a ++ d ++ c := by
  unfold writeAt
  have ht : (a ++ b ++ c).take a.length = a := by
    rw [List.append_assoc]
    exact List.take_left a (b ++ c)
  have hd : (a ++ b ++ c).drop (a.length + d.length) = c := by
    rw [h, show a.length + b.length = (a ++ b).length by simp]
    exact List.drop_left (a ++ b) c
  rw [ht, hd, List.append_assoc]

/-- Overwriting the initial segment of an append in place. -/
theorem writeAt_zero (a b d : List Nat) (h : d.length = a.length) :
    writeAt (a ++ b) 0 d = d ++ b := by
  unfold writeAt
  rw [List.take_zero, Nat.zero_add, h, List.drop_left, List.nil_append]

theorem stateOf_out_length (s0 : Scp) (p : Plan)
    (hlen : s0.header.track_data_headers.length = 168) :
    (stateOf s0 p).out.length = 688 + (bodyOf p).length := by
  show (writeHeader { s0.header with checksum := 0 } ++ bodyOf p).length = _
  rw [List.length_append, writeHeader_length]
  show 16 + 4 * s0.header.track_data_headers.length + (bodyOf p).length = _
  rw [hlen]

/-- One faithful slot iteration, started from the state a plan prefix
denotes, acts exactly as the plan's slot description. -/
theorem slotStep_stateOf (s0 s1 : Scp) (sel : List Nat)
    (hlen : s0.header.track_data_headers.length = 168)
    (p : Plan) (i : Nat) (hp : p.length = i) :
    slotStep s0 s1 sel (stateOf s0 p) i =
      (slotPlan s0 s1 sel i (688 + (bodyOf p).length)).map fun o =>
        stateOf s0 (p ++ [o.map fun tf => (688 + (bodyOf p).length, tf)]) := by
  have hout := stateOf_out_length s0 p hlen
  unfold slotStep slotPlan
  cases h0 : s0.tracks.getD i none with
  | none =>
    show Except.ok _ = Except.map _ (Except.ok none)
    show Except.ok _ = Except.ok _
    congr 1
    show ({ stateOf s0 p with hdrs := (stateOf s0 p).hdrs.set i 0 } : MergeState) = _
    unfold stateOf
    simp only [bodyOf_append, bodyOf_none, List.append_nil, Option.map_none',
      MergeState.mk.injEq, true_and]
    rw [hdrsOf_append_single]
    simp [hp, planVal]
  | some tr0 =>
    cases hpick : pickSrc s0 s1 (sel.getD i 0) with
    | none => simp only [hpick]; rfl
    | some src =>
      simp only [hpick]
      cases hsrc : src.tracks.getD i none with
      | none => simp only [hsrc]; rfl
      | some tr =>
        simp only [hsrc]
        have hsum : (stateOf s0 p).sum < 2 ^ 32 := Nat.mod_lt _ (by norm_num)
        rw [revLoop_eq src i _ tr.revs _ _ hsum]
        cases hfl : fluxesOf src i tr.revs with
        | none => simp only [hfl]; rfl
        | some fl =>
          simp only [hfl, Option.map_some']
          have hfllen : fl.length = tr.revs.length := fluxesOf_length hfl
          show Except.ok _ = Except.map _ (Except.ok _)
          show Except.ok _ = Except.ok _
          congr 1
          have hrevs2 :
              revsRewrite ((stateOf s0 p).out ++ writeTrack tr).length
                (stateOf s0 p).out.length tr.revs fl =
              revsRewrite ((688 + (bodyOf p).length) + (writeTrack tr).length)
                (688 + (bodyOf p).length) tr.revs fl := by
            rw [List.length_append, hout]
          have htblen : ∀ rv : List ScpRev, rv.length = tr.revs.length →
              (writeTrack { tr with revs := rv }).length = (writeTrack tr).length := by
            intro rv h
            apply writeTrack_length_eq
            simpa using h
          rw [hrevs2]
          unfold stateOf
          simp only [MergeState.mk.injEq]
          refine ⟨?_, ?_, ?_⟩
          · show writeAt ((writeHeader _ ++ bodyOf p) ++ writeTrack tr ++ fl.flatten)
              (writeHeader { s0.header with checksum := 0 } ++ bodyOf p).length
              (writeTrack _) = _
            rw [writeAt_mid _ _ _ _ (htblen _ (revsRewrite_length hfllen _ _))]
            simp only [Option.map_some', bodyOf_append, bodyOf_some, blockOf,
              List.append_assoc]
          · show ((((bodyOf p).sum % 2 ^ 32) + fl.flatten.sum) % 2 ^ 32 +
                checksum (writeTrack _)) % 2 ^ 32 = _
            simp only [Option.map_some', bodyOf_append, bodyOf_some, blockOf]
            rw [checksum_eq_sum, List.sum_append, List.sum_append]
            omega
          · show ((hdrsOf s0.header.track_data_headers 0 p).set i
                ((stateOf s0 p).out.length % 2 ^ 32)) = _
            rw [hout, hdrsOf_append_single]
            simp [hp, planVal]

theorem except_bind_ok {ε α β : Type} (a : α) (f : α → Except ε β) :
    (Except.ok (ε := ε) a).bind f = f a := rfl

theorem planFold_length {s0 s1 : Scp} {sel : List Nat} {n : Nat} {p : Plan}
    (h : planFold s0 s1 sel n = .ok p) : p.length = n := by
  induction n generalizing p with
  | zero =>
    unfold planFold at h
    cases h
    rfl
  | succ n ih =>
    unfold planFold at h
    cases hq : planFold s0 s1 sel n with
    | error e => rw [hq] at h; cases h
    | ok q =>
      rw [hq, except_bind_ok] at h
      cases ho : slotPlan s0 s1 sel n (688 + (bodyOf q).length) with
      | error e => rw [ho] at h; cases h
      | ok o =>
        rw [ho] at h
        cases h
        simp [ih hq]

/-- The faithful slot loop coincides with the plan view at every step. -/
theorem mergeFold_eq_plan (s0 s1 : Scp) (sel : List Nat)
    (hlen : s0.header.track_data_headers.length = 168) (n : Nat) :
    mergeFold s0 s1 sel n = (planFold s0 s1 sel n).map (stateOf s0) := by
  induction n with
  | zero =>
    show Except.ok (initState s0) = Except.ok (stateOf s0 [])
    congr 1
    unfold initState stateOf bodyOf hdrsOf
    simp
  | succ n ih =>
    unfold mergeFold planFold
    rw [ih]
    cases hq : planFold s0 s1 sel n with
    | error e => rfl
    | ok q =>
      show slotStep s0 s1 sel (stateOf s0 q) n = _
      rw [slotStep_stateOf s0 s1 sel hlen q n (planFold_length hq), except_bind_ok]
      cases ho : slotPlan s0 s1 sel n (688 + (bodyOf q).length) with
      | error e => rfl
      | ok o => rfl

/-- The output header's offset array after the whole slot loop. -/
def finalHdrs (s0 : Scp) (p : Plan) : List Nat :=
  hdrsOf s0.header.track_data_headers 0 p

/-- `scp_out_header` as it is serialized for the final checksum fold
(checksum field still zero, offset array corrected). -/
def csHeader (s0 : Scp) (p : Plan) : ScpHeader :=
  { s0.header with checksum := 0, track_data_headers := finalHdrs s0 p }

/-- The final running checksum (main.rs:135-137). -/
def totalOf (s0 : Scp) (p : Plan) : Nat :=
  ((bodyOf p).sum % 2 ^ 32 + checksum ((writeHeader (csHeader s0 p)).drop 16)) % 2 ^ 32

/-- The header written back over the placeholder at file start. -/
def finalHeader (s0 : Scp) (p : Plan) : ScpHeader :=
  { csHeader s0 p with checksum := totalOf s0 p }

/-- The finished output file a completed plan denotes. -/
def outOf (s0 : Scp) (p : Plan) : List Nat :=
  writeHeader (finalHeader s0 p) ++ bodyOf p

theorem finalHdrs_length (s0 : Scp) (p : Plan) :
    (finalHdrs s0 p).length = s0.header.track_data_headers.length :=
  hdrsOf_length p _ 0

set_option maxRecDepth 4000 in
/-- The merge produces exactly the file the completed plan describes. -/
theorem mergeCore_eq_plan (s0 s1 : Scp) (sel : List Nat)
    (hlen : s0.header.track_data_headers.length = 168) :
    mergeCore s0 s1 sel = (planFold s0 s1 sel 168).map (outOf s0) := by
  unfold mergeCore
  rw [mergeFold_eq_plan s0 s1 sel hlen]
  cases hq : planFold s0 s1 sel 168 with
  | error e => rfl
  | ok p =>
    show Except.ok _ = Except.ok _
    congr 1
    show writeAt (stateOf s0 p).out 0 (writeHeader (finalHeader s0 p)) = outOf s0 p
    unfold stateOf outOf
    apply writeAt_zero
    rw [writeHeader_length, writeHeader_length]
    show 16 + 4 * (finalHdrs s0 p).length = _
    rw [finalHdrs_length]

theorem take_append_le {α : Type} (q r : List α) (j : Nat) (h : j ≤ q.length) :
    (q ++ r).take j = q.take j := by
  rw [List.take_append_eq_append_take, Nat.sub_eq_zero_of_le h, List.take_zero,
    List.append_nil]

theorem getD_concat {α : Type} (a : List α) (e d : α) :
    (a ++ [e]).getD a.length d = e := by
  induction a with
  | nil => rfl
  | cons x xs ih => exact ih

theorem getD_take {α : Type} (l : List α) (m j : Nat) (d : α) (h : j < m) :
    (l.take m).getD j d = l.getD j d := by
  induction l generalizing m j with
  | nil => simp
  | cons x xs ih =>
    cases m with
    | zero => omega
    | succ m =>
      cases j with
      | zero => rfl
      | succ j => exact ih m j (by omega)

/-- A successful plan restricts to successful prefixes. -/
theorem planFold_take {s0 s1 : Scp} {sel : List Nat} {n : Nat} {p : Plan}
    (h : planFold s0 s1 sel n = .ok p) :
    ∀ j, j ≤ n → planFold s0 s1 sel j = .ok (p.take j) := by
  induction n generalizing p with
  | zero =>
    intro j hj
    cases Nat.le_zero.mp hj
    unfold planFold at h ⊢
    cases h
    rfl
  | succ n ih =>
    intro j hj
    unfold planFold at h
    cases hq : planFold s0 s1 sel n with
    | error e => rw [hq] at h; cases h
    | ok q =>
      rw [hq, except_bind_ok] at h
      cases ho : slotPlan s0 s1 sel n (688 + (bodyOf q).length) with
      | error e => rw [ho] at h; cases h
      | ok o =>
        rw [ho] at h
        cases h
        have hqlen : q.length = n := planFold_length hq
        rcases Nat.lt_or_ge j (n + 1) with hlt | hge
        · have hjn : j ≤ n := by omega
          rw [take_append_le _ _ _ (by omega)]
          exact ih hq j hjn
        · have : j = n + 1 := by omega
          subst this
          rw [List.take_of_length_le (by simp [hqlen])]
          unfold planFold
          rw [hq, except_bind_ok, ho]
          rfl

/-- The start position of slot `j`'s block in the output. -/
def slotPos (p : Plan) (j : Nat) : Nat := 688 + (bodyOf (p.take j)).length

/-- What a completed plan holds at slot `j`: the result of `slotPlan` run at
that slot's start position. -/
theorem planFold_slot {s0 s1 : Scp} {sel : List Nat} {n : Nat} {p : Plan}
    (h : planFold s0 s1 sel n = .ok p) {j : Nat} (hj : j < n) :
    ∃ o, slotPlan s0 s1 sel j (slotPos p j) = .ok o ∧
      p.getD j none = o.map fun tf => (slotPos p j, tf) := by
  have hlen : p.length = n := planFold_length h
  have h1 := planFold_take h (j + 1) hj
  have h2 := planFold_take h j (by omega)
  unfold planFold at h1
  rw [h2, except_bind_ok] at h1
  cases ho : slotPlan s0 s1 sel j (688 + (bodyOf (p.take j)).length) with
  | error e => rw [ho] at h1; cases h1
  | ok o =>
    rw [ho] at h1
    have h1' : p.take j ++ [o.map fun tf => (688 + (bodyOf (p.take j)).length, tf)]
        = p.take (j + 1) := by
      exact Except.ok.inj h1
    refine ⟨o, ho, ?_⟩
    have htk : (p.take j).length = j := by
      rw [List.length_take]
      omega
    calc p.getD j none = (p.take (j + 1)).getD j none := (getD_take _ _ _ _ (by omega)).symm
      _ = (p.take j ++ [o.map fun tf => (688 + (bodyOf (p.take j)).length, tf)]).getD j none := by
          rw [h1']
      _ = o.map fun tf => (slotPos p j, tf) := by
          have hg := getD_concat (p.take j)
            (o.map fun tf => (688 + (bodyOf (p.take j)).length, tf)) none
          rw [htk] at hg
          rw [hg]
          rfl

theorem bodyOf_cons (o : Option (Nat × ScpTrack × List (List Nat))) (p : Plan) :
    bodyOf (o :: p) = bodyOf [o] ++ bodyOf p := by
  cases o <;> simp [bodyOf]

theorem drop_eq_getD_cons {α : Type} {l : List α} {j : Nat} (hj : j < l.length)
    (d : α) : l.drop j = l.getD j d :: l.drop (j + 1) := by
  induction l generalizing j with
  | nil => simp at hj
  | cons x xs ih =>
    cases j with
    | zero => rfl
    | succ j => exact ih (by simpa using hj)

/-- The body splits at any slot into the earlier blocks, that slot's
block and the later blocks. -/
theorem body_decomp {p : Plan} {j : Nat} (hj : j < p.length) :
    bodyOf p = bodyOf (p.take j) ++ (bodyOf [p.getD j none] ++ bodyOf (p.drop (j + 1))) := by
  conv_lhs => rw [← List.take_append_drop j p]
  rw [bodyOf_append, drop_eq_getD_cons hj none, bodyOf_cons]

theorem outOf_length (s0 : Scp) (p : Plan)
    (hlen : s0.header.track_data_headers.length = 168) :
    (outOf s0 p).length = 688 + (bodyOf p).length := by
  unfold outOf
  rw [List.length_append, writeHeader_length]
  show 16 + 4 * (finalHdrs s0 p).length + _ = _
  rw [finalHdrs_length, hlen]

/-- The bytes of the output from a present slot's start position onwards:
that slot's rewritten track header, its flux payloads, then the later
blocks. -/
theorem outOf_drop_slot {s0 : Scp} {p : Plan} {j : Nat}
    {e : Nat × ScpTrack × List (List Nat)}
    (hlen : s0.header.track_data_headers.length = 168)
    (he : p.getD j none = some e) (hj : j < p.length) :
    (outOf s0 p).drop (slotPos p j) =
      blockOf e ++ bodyOf (p.drop (j + 1)) := by
  unfold outOf
  rw [body_decomp hj, he]
  have h688 : (writeHeader (finalHeader s0 p)).length = 688 := by
    rw [writeHeader_length]
    show 16 + 4 * (finalHdrs s0 p).length = _
    rw [finalHdrs_length, hlen]
  have hassoc : writeHeader (finalHeader s0 p) ++
      (bodyOf (p.take j) ++ (bodyOf [some e] ++ bodyOf (p.drop (j + 1)))) =
      (writeHeader (finalHeader s0 p) ++ bodyOf (p.take j)) ++
      (bodyOf [some e] ++ bodyOf (p.drop (j + 1))) := by
    simp [List.append_assoc]
  rw [show writeHeader (finalHeader s0 p) ++
      (bodyOf (p.take j) ++ (bodyOf [some e] ++ bodyOf (p.drop (j + 1)))) =
      (writeHeader (finalHeader s0 p) ++ bodyOf (p.take j)) ++
      (bodyOf [some e] ++ bodyOf (p.drop (j + 1))) from hassoc]
  have hpos : slotPos p j = ((writeHeader (finalHeader s0 p)) ++ bodyOf (p.take j)).length := by
    rw [List.length_append, h688]
    rfl
  rw [hpos, List.drop_left, bodyOf_some]

/-! ### Every successfully decoded structure is well-formed -/

theorem parseU8_bound {l rest : List Nat} {v : Nat} (h : parseU8 l = some (v, rest)) :
    v < 256 := by
  cases l with
  | nil => cases h
  | cons b l => cases h; exact Nat.mod_lt _ (by norm_num)

theorem parseU32_bound {l rest : List Nat} {v : Nat} (h : parseU32 l = some (v, rest)) :
    v < 2 ^ 32 := by
  match l, h with
  | b0 :: b1 :: b2 :: b3 :: l, h =>
    cases h
    have h0 : b0 % 256 < 256 := Nat.mod_lt _ (by norm_num)
    have h1 : b1 % 256 < 256 := Nat.mod_lt _ (by norm_num)
    have h2 : b2 % 256 < 256 := Nat.mod_lt _ (by norm_num)
    have h3 : b3 % 256 < 256 := Nat.mod_lt _ (by norm_num)
    omega

theorem parseU32s_bound {n : Nat} {l rest : List Nat} {xs : List Nat}
    (h : parseU32s n l = some (xs, rest)) :
    xs.length = n ∧ ∀ x ∈ xs, x < 2 ^ 32 := by
  induction n generalizing l xs rest with
  | zero =>
    cases h
    exact ⟨rfl, by simp⟩
  | succ n ih =>
    unfold parseU32s at h
    rw [Option.bind_eq_some] at h
    obtain ⟨x, hx, h⟩ := h
    rw [Option.map_eq_some'] at h
    obtain ⟨ys, hys, h⟩ := h
    cases h
    obtain ⟨hl, hb⟩ := ih hys
    refine ⟨by simp [hl], ?_⟩
    intro z hz
    rcases List.mem_cons.mp hz with rfl | hz
    · exact parseU32_bound hx
    · exact hb z hz

theorem parseRev_wf {l rest : List Nat} {r : ScpRev} (h : parseRev l = some (r, rest)) :
    r.WF := by
  unfold parseRev at h
  rw [Option.bind_eq_some] at h
  obtain ⟨d, hd, h⟩ := h
  rw [Option.bind_eq_some] at h
  obtain ⟨n, hn, h⟩ := h
  rw [Option.map_eq_some'] at h
  obtain ⟨o, ho, h⟩ := h
  cases h
  exact ⟨parseU32_bound hd, parseU32_bound hn, parseU32_bound ho⟩

theorem parseRevs_wf {n : Nat} {l rest : List Nat} {rs : List ScpRev}
    (h : parseRevs n l = some (rs, rest)) :
    rs.length = n ∧ ∀ r ∈ rs, r.WF := by
  induction n generalizing l rs rest with
  | zero =>
    cases h
    exact ⟨rfl, by simp⟩
  | succ n ih =>
    unfold parseRevs at h
    rw [Option.bind_eq_some] at h
    obtain ⟨r, hr, h⟩ := h
    rw [Option.map_eq_some'] at h
    obtain ⟨ys, hys, h⟩ := h
    cases h
    obtain ⟨hl, hb⟩ := ih hys
    refine ⟨by simp [hl], ?_⟩
    intro z hz
    rcases List.mem_cons.mp hz with rfl | hz
    · exact parseRev_wf hr
    · exact hb z hz

theorem parseTrackL_wf {rc : Nat} {l : List Nat} {t : ScpTrack}
    (h : parseTrackL rc l = some t) :
    t.WF ∧ t.revs.length = rc := by
  unfold parseTrackL at h
  rw [Option.bind_eq_some] at h
  obtain ⟨l1, _, h⟩ := h
  rw [Option.bind_eq_some] at h
  obtain ⟨tn, htn, h⟩ := h
  rw [Option.map_eq_some'] at h
  obtain ⟨rs, hrs, h⟩ := h
  cases h
  obtain ⟨hl, hwf⟩ := parseRevs_wf hrs
  exact ⟨⟨parseU8_bound htn, hwf⟩, hl⟩

theorem parseHeaderL_wf {l : List Nat} {h : ScpHeader}
    (hp : parseHeaderL l = some h) : h.WF := by
  unfold parseHeaderL at hp
  rw [Option.bind_eq_some] at hp
  obtain ⟨l1, _, hp⟩ := hp
  rw [Option.bind_eq_some] at hp
  obtain ⟨version, hversion, hp⟩ := hp
  rw [Option.bind_eq_some] at hp
  obtain ⟨disk_type, hdisk, hp⟩ := hp
  rw [Option.bind_eq_some] at hp
  obtain ⟨rev_count, hrev, hp⟩ := hp
  rw [Option.bind_eq_some] at hp
  obtain ⟨start_track, hstart, hp⟩ := hp
  rw [Option.bind_eq_some] at hp
  obtain ⟨end_track, hend, hp⟩ := hp
  rw [Option.bind_eq_some] at hp
  obtain ⟨flags, hflags, hp⟩ := hp
  rw [Option.bind_eq_some] at hp
  obtain ⟨bitcell_time, hbit, hp⟩ := hp
  rw [Option.bind_eq_some] at hp
  obtain ⟨heads, hheads, hp⟩ := hp
  rw [Option.bind_eq_some] at hp
  obtain ⟨resolution, hres, hp⟩ := hp
  rw [Option.bind_eq_some] at hp
  obtain ⟨cs, hcs, hp⟩ := hp
  rw [Option.map_eq_some'] at hp
  obtain ⟨tdh, htdh, hp⟩ := hp
  cases hp
  obtain ⟨hlen, hball⟩ := parseU32s_bound htdh
  exact ⟨parseU8_bound hversion, parseU8_bound hdisk, parseU8_bound hrev,
    parseU8_bound hstart, parseU8_bound hend, parseU8_bound hflags,
    parseU8_bound hbit, parseU8_bound hheads, parseU8_bound hres,
    parseU32_bound hcs, hlen, hball⟩


/-! ### Loader characterization -/

/-- What `load` guarantees about every image it returns. -/
def Scp.WF (s : Scp) : Prop :=
  s.header.WF ∧ s.header.bitcell_time = 0 ∧ s.tracks.length = 168 ∧
  (∀ i, i < 168 →
    (s.header.track_data_headers.getD i 0 = 0 ↔ s.tracks.getD i none = none)) ∧
  (∀ t ∈ s.tracks, ∀ tr, t = some tr →
    tr.WF ∧ tr.revs.length = s.header.rev_count)

instance (s : Scp) : Decidable s.WF := by unfold Scp.WF; infer_instance

theorem loadTracks_length {f : List Nat} {rc : Nat} {offs : List Nat}
    {ts : List (Option ScpTrack)} (h : loadTracks f rc offs = some ts) :
    ts.length = offs.length := by
  induction offs generalizing ts with
  | nil => cases h; rfl
  | cons off offs ih =>
    unfold loadTracks at h
    by_cases hz : off ≠ 0
    · rw [if_pos hz] at h
      cases hp : parseTrackL rc (f.drop off) with
      | none => rw [hp] at h; cases h
      | some t =>
        rw [hp] at h
        cases hl : loadTracks f rc offs with
        | none => rw [hl] at h; cases h
        | some ts' =>
          rw [hl] at h
          cases h
          simp [ih hl]
    · rw [if_neg hz] at h
      cases hl : loadTracks f rc offs with
      | none => rw [hl] at h; cases h
      | some ts' =>
        rw [hl] at h
        cases h
        simp [ih hl]

theorem loadTracks_zero {f : List Nat} {rc : Nat} {offs : List Nat}
    {ts : List (Option ScpTrack)} (h : loadTracks f rc offs = some ts)
    {i : Nat} (hi : i < offs.length) (h0 : offs.getD i 0 = 0) :
    ts.getD i none = none := by
  induction offs generalizing ts i with
  | nil => simp at hi
  | cons off offs ih =>
    unfold loadTracks at h
    by_cases hz : off ≠ 0
    · rw [if_pos hz] at h
      cases hp : parseTrackL rc (f.drop off) with
      | none => rw [hp] at h; cases h
      | some t =>
        rw [hp] at h
        cases hl : loadTracks f rc offs with
        | none => rw [hl] at h; cases h
        | some ts' =>
          rw [hl] at h
          cases h
          cases i with
          | zero => exact absurd h0 hz
          | succ i => exact ih hl (by simpa using hi) h0
    · rw [if_neg hz] at h
      cases hl : loadTracks f rc offs with
      | none => rw [hl] at h; cases h
      | some ts' =>
        rw [hl] at h
        cases h
        cases i with
        | zero => rfl
        | succ i => exact ih hl (by simpa using hi) h0

theorem loadTracks_nonzero {f : List Nat} {rc : Nat} {offs : List Nat}
    {ts : List (Option ScpTrack)} (h : loadTracks f rc offs = some ts)
    {i : Nat} (hi : i < offs.length) (h0 : offs.getD i 0 ≠ 0) :
    ∃ tr, parseTrackL rc (f.drop (offs.getD i 0)) = some tr ∧
      ts.getD i none = some tr := by
  induction offs generalizing ts i with
  | nil => simp at hi
  | cons off offs ih =>
    unfold loadTracks at h
    by_cases hz : off ≠ 0
    · rw [if_pos hz] at h
      cases hp : parseTrackL rc (f.drop off) with
      | none => rw [hp] at h; cases h
      | some t =>
        rw [hp] at h
        cases hl : loadTracks f rc offs with
        | none => rw [hl] at h; cases h
        | some ts' =>
          rw [hl] at h
          cases h
          cases i with
          | zero => exact ⟨t, hp, rfl⟩
          | succ i => exact ih hl (by simpa using hi) h0
    · rw [if_neg hz] at h
      cases hl : loadTracks f rc offs with
      | none => rw [hl] at h; cases h
      | some ts' =>
        rw [hl] at h
        cases h
        cases i with
        | zero => exact absurd (not_not.mp hz) h0
        | succ i => exact ih hl (by simpa using hi) h0

theorem loadTracks_mem_wf {f : List Nat} {rc : Nat} {offs : List Nat}
    {ts : List (Option ScpTrack)} (h : loadTracks f rc offs = some ts) :
    ∀ t ∈ ts, ∀ tr, t = some tr → tr.WF ∧ tr.revs.length = rc := by
  induction offs generalizing ts with
  | nil => cases h; simp
  | cons off offs ih =>
    unfold loadTracks at h
    by_cases hz : off ≠ 0
    · rw [if_pos hz] at h
      cases hp : parseTrackL rc (f.drop off) with
      | none => rw [hp] at h; cases h
      | some t =>
        rw [hp] at h
        cases hl : loadTracks f rc offs with
        | none => rw [hl] at h; cases h
        | some ts' =>
          rw [hl] at h
          cases h
          intro u hu tr htr
          rcases List.mem_cons.mp hu with rfl | hu
          · cases htr
            exact parseTrackL_wf hp
          · exact ih hl u hu tr htr
    · rw [if_neg hz] at h
      cases hl : loadTracks f rc offs with
      | none => rw [hl] at h; cases h
      | some ts' =>
        rw [hl] at h
        cases h
        intro u hu tr htr
        rcases List.mem_cons.mp hu with rfl | hu
        · cases htr
        · exact ih hl u hu tr htr

/-- Inversion of a successful load. -/
theorem loadScp_inv {f : List Nat} {s : Scp} (h : loadScp f = .ok s) :
    parseHeaderL f = some s.header ∧ s.file = f ∧ s.header.bitcell_time = 0 ∧
      loadTracks f s.header.rev_count s.header.track_data_headers = some s.tracks := by
  unfold loadScp at h
  cases hp : parseHeaderL f with
  | none => rw [hp] at h; cases h
  | some hd =>
    rw [hp] at h
    replace h : (if hd.bitcell_time ≠ 0 then Except.error LoadErr.unsupportedFormat
        else match loadTracks f hd.rev_count hd.track_data_headers with
          | none => Except.error LoadErr.formatError
          | some ts => Except.ok (⟨f, hd, ts⟩ : Scp)) = Except.ok s := h
    by_cases hb : hd.bitcell_time ≠ 0
    · rw [if_pos hb] at h; cases h
    · rw [if_neg hb] at h
      cases hl : loadTracks f hd.rev_count hd.track_data_headers with
      | none => rw [hl] at h; cases h
      | some ts =>
        rw [hl] at h
        cases h
        exact ⟨rfl, rfl, by simpa using hb, hl⟩

/-- A load succeeds exactly when its three stages do. -/
theorem loadScp_eq_ok {f : List Nat} {h : ScpHeader} {ts : List (Option ScpTrack)}
    (hp : parseHeaderL f = some h) (hb : h.bitcell_time = 0)
    (hl : loadTracks f h.rev_count h.track_data_headers = some ts) :
    loadScp f = .ok ⟨f, h, ts⟩ := by
  unfold loadScp
  simp only [hp]
  rw [if_neg (by simp [hb])]
  simp only [hl]

/-- Everything the loader returns is well-formed. -/
theorem loadScp_wf {f : List Nat} {s : Scp} (h : loadScp f = .ok s) : s.WF := by
  obtain ⟨hp, hfile, hbit, hl⟩ := loadScp_inv h
  have hhwf := parseHeaderL_wf hp
  have hlen168 : s.header.track_data_headers.length = 168 := hhwf.2.2.2.2.2.2.2.2.2.2.1
  refine ⟨hhwf, hbit, ?_, ?_, ?_⟩
  · rw [loadTracks_length hl, hlen168]
  · intro i hi
    constructor
    · intro h0
      exact loadTracks_zero hl (by omega) h0
    · intro hnone
      by_contra h0
      obtain ⟨tr, _, htr⟩ := loadTracks_nonzero hl (by omega) h0
      rw [hnone] at htr
      cases htr
  · exact loadTracks_mem_wf hl

/-! ### Reading fields back from serialized headers -/

/-- The 12 bytes preceding the checksum field: magic plus the nine
single-byte fields. -/
def hdrPrefix (h : ScpHeader) : List Nat :=
  [0x53, 0x43, 0x50, h.version % 256, h.disk_type % 256, h.rev_count % 256,
   h.start_track % 256, h.end_track % 256, h.flags % 256, h.bitcell_time % 256,
   h.heads % 256, h.resolution % 256]

theorem writeHeader_parts (h : ScpHeader) :
    writeHeader h = hdrPrefix h ++ le32 h.checksum ++
      (h.track_data_headers.map le32).flatten := rfl

theorem drop_append_len (a b : List Nat) (k : Nat) :
    (a ++ b).drop (a.length + k) = b.drop k := by
  rw [← List.drop_drop, List.drop_left]

theorem writeHeader_drop16 (h : ScpHeader) (rest : List Nat) :
    (writeHeader h ++ rest).drop 16 =
      (h.track_data_headers.map le32).flatten ++ rest := by
  rw [writeHeader_parts, List.append_assoc, List.append_assoc]
  rw [show (16 : Nat) = (hdrPrefix h ++ le32 h.checksum).length + 0 from rfl]
  rw [show hdrPrefix h ++ (le32 h.checksum ++
      ((h.track_data_headers.map le32).flatten ++ rest)) =
      (hdrPrefix h ++ le32 h.checksum) ++
      ((h.track_data_headers.map le32).flatten ++ rest) by
    simp [List.append_assoc]]
  rw [drop_append_len]
  rfl

theorem writeHeader_drop16_nil (h : ScpHeader) :
    (writeHeader h).drop 16 = (h.track_data_headers.map le32).flatten := by
  have := writeHeader_drop16 h []
  simpa using this

/-- The checksum field lives at offset 0x0C of the serialized header. -/
theorem readU32_checksum_field (h : ScpHeader) (rest : List Nat) :
    readU32 (writeHeader h ++ rest) 12 = some (h.checksum % 2 ^ 32) := by
  unfold readU32
  rw [writeHeader_parts, List.append_assoc, List.append_assoc]
  rw [show (12 : Nat) = (hdrPrefix h).length + 0 from rfl, drop_append_len,
    List.drop_zero, parseU32_le32]
  rfl

theorem flatten_le32_drop (xs : List Nat) (i : Nat) (hi : i < xs.length) :
    ((xs.map le32).flatten).drop (4 * i) =
      le32 (xs.getD i 0) ++ ((xs.drop (i + 1)).map le32).flatten := by
  induction xs generalizing i with
  | nil => simp at hi
  | cons x xs ih =>
    cases i with
    | zero => simp
    | succ i =>
      rw [List.map_cons, List.flatten_cons,
        show 4 * (i + 1) = (le32 x).length + 4 * i by rw [le32_length]; omega,
        drop_append_len]
      exact ih i (by simpa using hi)

/-- Offset-array entry `i` lives at offset `16 + 4*i` of the serialized
header. -/
theorem readU32_tdh_field (h : ScpHeader) (rest : List Nat) (i : Nat)
    (hi : i < h.track_data_headers.length) :
    readU32 (writeHeader h ++ rest) (16 + 4 * i) =
      some (h.track_data_headers.getD i 0 % 2 ^ 32) := by
  unfold readU32
  rw [← List.drop_drop, writeHeader_drop16, List.drop_append_eq_append_drop,
    flatten_le32_drop _ _ hi,
    show 4 * i - ((h.track_data_headers.map le32).flatten).length = 0 by
      rw [flatten_le32_length]; omega,
    List.drop_zero, List.append_assoc, parseU32_le32]
  rfl

/-! ### Claim theorems -/

theorem mergeCore_ok_plan {s0 s1 : Scp} {sel out : List Nat}
    (hlen : s0.header.track_data_headers.length = 168)
    (hm : mergeCore s0 s1 sel = .ok out) :
    ∃ p, planFold s0 s1 sel 168 = .ok p ∧ out = outOf s0 p := by
  rw [mergeCore_eq_plan s0 s1 sel hlen] at hm
  cases hq : planFold s0 s1 sel 168 with
  | error e => rw [hq] at hm; cases hm
  | ok p =>
    rw [hq] at hm
    exact ⟨p, rfl, (Except.ok.inj hm).symm⟩

/-- C2: the checksum accumulator is a pure function computing the sum of
all byte values modulo 2³² — unsigned wraparound addition that can never
trap, whatever the input bytes. -/
theorem c2_checksum_is_byte_sum_mod (data : List Nat) :
    checksum data = data.sum % 2 ^ 32 :=
  checksum_eq_sum data

/-- C1: for every successful merge, the 32-bit checksum stored at offset
0x0C of the output file equals the wraparound byte-sum over the output's
bytes from offset 16 onward — exactly the 168-entry offset array of the
output header followed by every rewritten track header and every copied
flux payload — so independently recomputing that sum over the finished
file reproduces the stored field. -/
theorem c1_output_checksum (s0 s1 : Scp) (sel out : List Nat)
    (hlen : s0.header.track_data_headers.length = 168)
    (hm : mergeCore s0 s1 sel = .ok out) :
    readU32 out 12 = some (checksum (out.drop 16)) ∧ 688 ≤ out.length := by
  obtain ⟨p, hp, rfl⟩ := mergeCore_ok_plan hlen hm
  constructor
  · unfold outOf
    rw [readU32_checksum_field, writeHeader_drop16, checksum_eq_sum,
      List.sum_append]
    congr 1
    show totalOf s0 p % 2 ^ 32 = _
    unfold totalOf
    rw [writeHeader_drop16_nil, checksum_eq_sum]
    show (((bodyOf p).sum % 2 ^ 32 +
        ((finalHdrs s0 p).map le32).flatten.sum % 2 ^ 32) % 2 ^ 32) % 2 ^ 32 =
      (((finalHdrs s0 p).map le32).flatten.sum + (bodyOf p).sum) % 2 ^ 32
    omega
  · rw [outOf_length _ _ hlen]
    omega

/-- C3: for every slot at which source 0 has no track, a successful merge
stores 0 in that slot's entry of the output header's offset array,
whatever the selection table says — so a track present only in source 1
never appears in the output. -/
theorem c3_absent_slot_entry_zero (s0 s1 : Scp) (sel out : List Nat) (i : Nat)
    (hlen : s0.header.track_data_headers.length = 168)
    (hm : mergeCore s0 s1 sel = .ok out)
    (hi : i < 168) (habs : s0.tracks.getD i none = none) :
    readU32 out (16 + 4 * i) = some 0 := by
  obtain ⟨p, hp, rfl⟩ := mergeCore_ok_plan hlen hm
  have hplen : p.length = 168 := planFold_length hp
  obtain ⟨o, ho, he⟩ := planFold_slot hp (show i < 168 from hi)
  have hnone : o = none := by
    unfold slotPlan at ho
    rw [habs] at ho
    exact (Except.ok.inj ho).symm
  subst hnone
  unfold outOf
  rw [readU32_tdh_field _ _ _ (show i < (finalHeader s0 p).track_data_headers.length by
    show i < (finalHdrs s0 p).length
    rw [finalHdrs_length, hlen]
    exact hi)]
  have hv := hdrsOf_getD p s0.header.track_data_headers 0 i
    (by omega) (by rw [hlen]; omega)
  simp only [Nat.zero_add] at hv
  show some ((finalHdrs s0 p).getD i 0 % 2 ^ 32) = some 0
  unfold finalHdrs
  rw [hv, he]
  rfl

/-- C4: loading fails with `UnsupportedFormat` exactly when the header
decodes and its `bitcell_time` is non-zero; any such failure aborts the run
with no output bytes produced. -/
theorem c4_unsupported_format :
    (∀ f : List Nat, loadScp f = .error .unsupportedFormat ↔
      ∃ h, parseHeaderL f = some h ∧ h.bitcell_time ≠ 0) ∧
    (∀ f0 f1 sel out, (loadScp f0 = .error .unsupportedFormat ∨
        loadScp f1 = .error .unsupportedFormat) →
      run f0 f1 sel ≠ .ok out) := by
  constructor
  · intro f
    constructor
    · intro h
      unfold loadScp at h
      cases hp : parseHeaderL f with
      | none => rw [hp] at h; simp at h
      | some hd =>
        rw [hp] at h
        replace h : (if hd.bitcell_time ≠ 0 then Except.error LoadErr.unsupportedFormat
            else match loadTracks f hd.rev_count hd.track_data_headers with
              | none => Except.error LoadErr.formatError
              | some ts => Except.ok (⟨f, hd, ts⟩ : Scp)) =
            Except.error LoadErr.unsupportedFormat := h
        by_cases hb : hd.bitcell_time ≠ 0
        · exact ⟨hd, rfl, hb⟩
        · rw [if_neg hb] at h
          cases hl : loadTracks f hd.rev_count hd.track_data_headers with
          | none => rw [hl] at h; simp at h
          | some ts => rw [hl] at h; simp at h
    · intro ⟨hd, hp, hb⟩
      unfold loadScp
      simp only [hp]
      rw [if_pos hb]
  · intro f0 f1 sel out h hc
    unfold run at hc
    cases h0 : loadScp f0 with
    | error e =>
      rw [h0] at hc
      cases e <;> simp at hc
    | ok s0 =>
      rw [h0] at hc
      rcases h with h | h
      · rw [h0] at h; cases h
      · replace hc : (match loadScp f1 with
          | .error e => Except.error e.toRun
          | .ok s1 =>
            match mergeCore s0 s1 sel with
            | .error .panic => Except.error RunErr.mergePanic
            | .error .ioError => Except.error RunErr.mergeIo
            | .ok o => Except.ok o) = Except.ok out := hc
        rw [h] at hc
        simp [LoadErr.toRun] at hc

/-! ### Concrete example images (witnesses and counterexamples) -/

/-- Extract the success value of an `Except`, with a fallback. -/
def getOk {ε α : Type} (x : Except ε α) (d : α) : α :=
  match x with
  | .ok a => a
  | .error _ => d

/-- The all-zeros (default) selection table. -/
def zeroSel : List Nat := List.replicate 168 0

/-- A one-track image: slot 0 holds a single-revolution track whose four
flux bytes `[1, 2, 3, 4]` sit right after the 16-byte track header. -/
def exHeaderA : ScpHeader :=
  ⟨2, 0, 1, 0, 83, 0, 0, 0, 0, 0, 688 :: List.replicate 167 0⟩

def exTrackA : ScpTrack := ⟨0, [⟨1000, 2, 16⟩]⟩

def exFileA : List Nat := writeHeader exHeaderA ++ writeTrack exTrackA ++ [1, 2, 3, 4]

def exScpA : Scp := getOk (loadScp exFileA) ⟨[], exHeaderA, []⟩

def exOutA : List Nat := getOk (mergeCore exScpA exScpA zeroSel) []

/-- An image with no tracks at all. -/
def exHeaderNone : ScpHeader :=
  ⟨2, 0, 1, 0, 83, 0, 0, 0, 0, 0, List.replicate 168 0⟩

def exFileNone : List Nat := writeHeader exHeaderNone

/-- Selection table routing slot 0 to source 1. -/
def exSelOne : List Nat := zeroSel.set 0 1

/-- A header with the unsupported `bitcell_time = 3` (the spec's rejection
scenario). -/
def exHeaderBad : ScpHeader :=
  ⟨2, 0, 1, 0, 83, 0, 3, 0, 0, 0, List.replicate 168 0⟩

def exFileBad : List Nat := writeHeader exHeaderBad

/-- Witness for C1 at a concrete merge. -/
theorem c1_output_checksum_witness :
    exScpA.header.track_data_headers.length = 168 ∧
    mergeCore exScpA exScpA zeroSel = .ok exOutA ∧
    (readU32 exOutA 12 = some (checksum (exOutA.drop 16)) ∧ 688 ≤ exOutA.length) :=
  ⟨by decide, by rfl,
   c1_output_checksum exScpA exScpA zeroSel exOutA (by decide) (by rfl)⟩

/-- Witness for C3 at a concrete merge: slot 1 is absent in source 0. -/
theorem c3_absent_slot_entry_zero_witness :
    exScpA.tracks.getD 1 none = none ∧ readU32 exOutA (16 + 4 * 1) = some 0 :=
  ⟨by decide,
   c3_absent_slot_entry_zero exScpA exScpA zeroSel exOutA 1 (by decide) (by rfl)
     (by decide) (by decide)⟩

/-- Witness for C4 at the spec's rejection scenario (`bitcell_time = 3`). -/
theorem c4_unsupported_format_witness :
    (loadScp exFileBad = .error .unsupportedFormat ↔
      ∃ h, parseHeaderL exFileBad = some h ∧ h.bitcell_time ≠ 0) ∧
    run exFileBad exFileA zeroSel ≠ .ok [] ∧
    loadScp exFileBad = .error .unsupportedFormat :=
  ⟨c4_unsupported_format.1 exFileBad,
   c4_unsupported_format.2 exFileBad exFileA zeroSel [] (Or.inl (by rfl)),
   by rfl⟩

/-- C9: a pair of inputs where source 0 has a track at slot 0, the
selection table routes slot 0 to source 1, and source 1 has no track
there: the merge hits the `unwrap` on `None` (a panic), rather than
returning an error value. -/
theorem c9_selected_missing_track_panics :
    run exFileA exFileNone exSelOne = .error .mergePanic := by rfl

/-- C8 (evaluating the flattening code at the failing input): starting
from the all-zeros default, the override `(track_number 1, side 0, source
1)` is stored at table index `1` (`split[0] + split[1]*2`, i.e.
`track_number + 2*side`), leaving the spec-mandated slot index
`track_number*2 + side = 2` at its default. -/
theorem c8_selection_flattening :
    trackParamsTable [] = some zeroSel ∧
    trackParamsTable [(1, 0, 1)] = some (zeroSel.set 1 1) ∧
    (zeroSel.set 1 1).getD (1 * 2 + 0) 0 = 0 ∧
    (zeroSel.set 1 1).getD (1 + 0 * 2) 0 = 1 := by
  refine ⟨by rfl, by rfl, by decide, by decide⟩

/-! ### C5: monotonicity of the rewritten revolution offsets -/

/-- The offsets the revolution loop assigns: each revolution's payload
position, relative to the track header, truncated to `u32`. -/
def offsetsFrom (pos thp : Nat) : List (List Nat) → List Nat
  | [] => []
  | f :: fs => (pos - thp) % 2 ^ 32 :: offsetsFrom (pos + f.length) thp fs

theorem revsRewrite_map_offset {revs : List ScpRev} {fl : List (List Nat)}
    (h : fl.length = revs.length) (pos thp : Nat) :
    (revsRewrite pos thp revs fl).map ScpRev.offset = offsetsFrom pos thp fl := by
  induction revs generalizing fl pos with
  | nil => cases fl <;> simp [revsRewrite, offsetsFrom] at h ⊢
  | cons r rs ih =>
    cases fl with
    | nil => simp at h
    | cons f fs =>
      simp [revsRewrite, offsetsFrom, ih (by simpa using h)]

theorem offsetsFrom_chain_le (fl : List (List Nat)) (pos thp : Nat)
    (hthp : thp ≤ pos) (hb : pos + fl.flatten.length < thp + 2 ^ 32) :
    List.Chain' (· ≤ ·) (offsetsFrom pos thp fl) := by
  induction fl generalizing pos with
  | nil => simp [offsetsFrom]
  | cons f fs ih =>
    rw [offsetsFrom, List.chain'_cons']
    constructor
    · intro y hy
      cases fs with
      | nil => simp [offsetsFrom] at hy
      | cons f' fs' =>
        simp only [offsetsFrom, List.head?_cons, Option.mem_def,
          Option.some.injEq] at hy
        subst hy
        simp only [List.flatten_cons, List.length_append] at hb
        omega
    · refine ih (pos + f.length) (by omega) ?_
      simp only [List.flatten_cons, List.length_append] at hb
      omega

theorem offsetsFrom_chain_lt (fl : List (List Nat)) (pos thp : Nat)
    (hthp : thp ≤ pos) (hb : pos + fl.flatten.length < thp + 2 ^ 32)
    (hne : ∀ f ∈ fl, f ≠ []) :
    List.Chain' (· < ·) (offsetsFrom pos thp fl) := by
  induction fl generalizing pos with
  | nil => simp [offsetsFrom]
  | cons f fs ih =>
    rw [offsetsFrom, List.chain'_cons']
    constructor
    · intro y hy
      cases fs with
      | nil => simp [offsetsFrom] at hy
      | cons f' fs' =>
        simp only [offsetsFrom, List.head?_cons, Option.mem_def,
          Option.some.injEq] at hy
        subst hy
        simp only [List.flatten_cons, List.length_append] at hb
        have hfne : f.length ≠ 0 := by
          simpa [List.length_eq_zero] using hne f (List.mem_cons_self _ _)
        omega
    · refine ih (pos + f.length) (by omega) ?_ ?_
      · simp only [List.flatten_cons, List.length_append] at hb
        omega
      · intro g hg
        exact hne g (List.mem_cons_of_mem _ hg)

theorem fluxesOf_nonempty {src : Scp} {i : Nat} {revs : List ScpRev}
    {fl : List (List Nat)} (h : fluxesOf src i revs = some fl)
    (hnb : ∀ r ∈ revs, 0 < r.num_bitcells) :
    ∀ f ∈ fl, f ≠ [] := by
  induction revs generalizing fl with
  | nil => cases h; simp
  | cons r rs ih =>
    unfold fluxesOf at h
    cases hf : revFlux src i r with
    | none => rw [hf] at h; cases h
    | some f =>
      rw [hf] at h
      cases hfl : fluxesOf src i rs with
      | none => rw [hfl] at h; cases h
      | some fl' =>
        rw [hfl] at h
        cases h
        intro g hg
        rcases List.mem_cons.mp hg with rfl | hg
        · have hlen : g.length = r.num_bitcells * 2 := readN_length hf
          have : 0 < r.num_bitcells := hnb r (List.mem_cons_self _ _)
          intro hnil
          rw [hnil] at hlen
          simp at hlen
          omega
        · exact ih hfl (fun r' hr' => hnb r' (List.mem_cons_of_mem _ hr')) g hg

/-- C5 (amended): the offsets the revolution loop writes are all `≥ 0`
(they are naturals) and non-decreasing across successive revolutions of a
track; they are strictly increasing provided every revolution has a
positive `num_bitcells` (a zero-bitcell revolution appends no bytes and
repeats the previous offset) and the track's span stays below the `u32`
truncation bound. -/
theorem c5_rev_offsets_monotone (src : Scp) (i thp : Nat) (revs : List ScpRev)
    (out out' : List Nat) (sum sum' : Nat) (revs' : List ScpRev)
    (h : revLoop src i thp revs out sum = some (out', sum', revs'))
    (hsum : sum < 2 ^ 32) (hthp : thp ≤ out.length)
    (hbound : out'.length < thp + 2 ^ 32) :
    (∀ o ∈ revs'.map ScpRev.offset, 0 ≤ o) ∧
    List.Chain' (· ≤ ·) (revs'.map ScpRev.offset) ∧
    ((∀ r ∈ revs, 0 < r.num_bitcells) →
      List.Chain' (· < ·) (revs'.map ScpRev.offset)) := by
  rw [revLoop_eq src i thp revs out sum hsum] at h
  cases hfl : fluxesOf src i revs with
  | none => rw [hfl] at h; cases h
  | some fl =>
    rw [hfl, Option.map_some'] at h
    cases h
    have hfllen : fl.length = revs.length := fluxesOf_length hfl
    have hb : out.length + fl.flatten.length < thp + 2 ^ 32 := by
      simpa using hbound
    rw [revsRewrite_map_offset hfllen]
    refine ⟨by simp, offsetsFrom_chain_le fl out.length thp hthp hb, ?_⟩
    intro hnb
    exact offsetsFrom_chain_lt fl out.length thp hthp hb
      (fluxesOf_nonempty hfl hnb)

/-- A two-revolution track whose revolutions both have `num_bitcells = 0`
(the loader accepts it; each flux read is zero bytes long). -/
def exHeaderB : ScpHeader :=
  ⟨2, 0, 2, 0, 83, 0, 0, 0, 0, 0, 688 :: List.replicate 167 0⟩

def exTrackB : ScpTrack := ⟨0, [⟨5, 0, 28⟩, ⟨6, 0, 28⟩]⟩

def exFileB : List Nat := writeHeader exHeaderB ++ writeTrack exTrackB

def exScpB : Scp := getOk (loadScp exFileB) ⟨[], exHeaderB, []⟩

def exOutB : List Nat := getOk (mergeCore exScpB exScpB zeroSel) []

/-- C5 counterexample: merging `exFileB` with itself succeeds, and the
written track's two revolution offset fields (at output bytes 700 and 712)
are both 28 — equal, not strictly increasing. -/
theorem c5_counterexample_equal_offsets :
    mergeCore exScpB exScpB zeroSel = .ok exOutB ∧
    readU32 exOutB 700 = some 28 ∧ readU32 exOutB 712 = some 28 ∧
    ¬(28 < 28) :=
  ⟨by rfl, by rfl, by rfl, by decide⟩

/-- Witness for the amended C5 at a concrete revolution loop run. -/
def exRevLoopRes : List Nat × Nat × List ScpRev :=
  (revLoop exScpA 0 688 exTrackA.revs (List.replicate 704 0) 0).getD ([], 0, [])

theorem c5_rev_offsets_monotone_witness :
    revLoop exScpA 0 688 exTrackA.revs (List.replicate 704 0) 0 =
      some exRevLoopRes ∧
    List.Chain' (· < ·) (exRevLoopRes.2.2.map ScpRev.offset) :=
  ⟨by rfl,
   (c5_rev_offsets_monotone exScpA 0 688 exTrackA.revs (List.replicate 704 0)
      exRevLoopRes.1 0 exRevLoopRes.2.1 exRevLoopRes.2.2 (by rfl) (by decide)
      (by decide) (by decide)).2.2 (by decide)⟩

/-! ### Machinery for the round-trip claims -/

theorem getD_mem {α : Type} {l : List α} {j : Nat} (hj : j < l.length) (d : α) :
    l.getD j d ∈ l := by
  induction l generalizing j with
  | nil => simp at hj
  | cons x xs ih =>
    cases j with
    | zero => exact List.mem_cons_self _ _
    | succ j => exact List.mem_cons_of_mem _ (ih (by simpa using hj))

theorem take_succ_getD {α : Type} {l : List α} {j : Nat} (hj : j < l.length) (d : α) :
    l.take (j + 1) = l.take j ++ [l.getD j d] := by
  induction l generalizing j with
  | nil => simp at hj
  | cons x xs ih =>
    cases j with
    | zero => rfl
    | succ j =>
      show x :: xs.take (j + 1) = x :: (xs.take j ++ [xs.getD j d])
      rw [ih (by simpa using hj)]

/-- Every rewritten revolution keeps `u32`-ranged fields. -/
theorem revsRewrite_wf {revs : List ScpRev} (fl : List (List Nat))
    (pos thp : Nat) (h : ∀ r ∈ revs, r.WF) :
    ∀ r' ∈ revsRewrite pos thp revs fl, r'.WF := by
  induction revs generalizing fl pos with
  | nil => cases fl <;> simp [revsRewrite]
  | cons r rs ih =>
    cases fl with
    | nil => simp [revsRewrite]
    | cons f fs =>
      intro r' hr'
      rw [revsRewrite] at hr'
      rcases List.mem_cons.mp hr' with rfl | hr'
      · obtain ⟨h1, h2, _⟩ := h r (List.mem_cons_self _ _)
        exact ⟨h1, h2, Nat.mod_lt _ (by norm_num)⟩
      · exact ih fs (pos + f.length) (fun x hx => h x (List.mem_cons_of_mem _ hx)) r' hr'

/-- Rewriting offsets a second time with the same geometry is a no-op:
the offsets are overwritten with the same values and nothing else is read
from the records being rewritten except `duration`/`num_bitcells`. -/
theorem revsRewrite_idem (revs : List ScpRev) (fl : List (List Nat))
    (pos thp : Nat) :
    revsRewrite pos thp (revsRewrite pos thp revs fl) fl =
      revsRewrite pos thp revs fl := by
  induction revs generalizing fl pos with
  | nil => cases fl <;> simp [revsRewrite]
  | cons r rs ih =>
    cases fl with
    | nil => simp [revsRewrite]
    | cons f fs =>
      show revsRewrite pos thp
        ({ r with offset := (pos - thp) % 2 ^ 32 } :: revsRewrite (pos + f.length) thp rs fs)
        (f :: fs) = _
      rw [revsRewrite, ih fs (pos + f.length)]
      rfl

theorem hdrsOf_set_lt (p : Plan) (hs : List Nat) (k m v : Nat) (hm : m < k) :
    (hdrsOf hs k p).set m v = hdrsOf (hs.set m v) k p := by
  induction p generalizing hs k with
  | nil => rfl
  | cons o q ih =>
    show (hdrsOf (hs.set k (planVal o)) (k + 1) q).set m v = _
    rw [ih _ _ (by omega)]
    show hdrsOf ((hs.set k (planVal o)).set m v) (k + 1) q =
      hdrsOf ((hs.set m v).set k (planVal o)) (k + 1) q
    rw [List.set_comm _ _ _ (by omega)]

/-- Re-running the header-array update fold over the already-updated array
changes nothing. -/
theorem hdrsOf_idem (p : Plan) (hs : List Nat) (k : Nat) :
    hdrsOf (hdrsOf hs k p) k p = hdrsOf hs k p := by
  induction p generalizing hs k with
  | nil => rfl
  | cons o q ih =>
    show hdrsOf ((hdrsOf (hs.set k (planVal o)) (k + 1) q).set k (planVal o)) (k + 1) q = _
    rw [hdrsOf_set_lt _ _ _ _ _ (by omega), List.set_set]
    exact ih (hs.set k (planVal o)) (k + 1)

theorem fluxesOf_lengths {src : Scp} {i : Nat} {revs : List ScpRev}
    {fl : List (List Nat)} (h : fluxesOf src i revs = some fl) :
    List.Forall₂ (fun (r : ScpRev) (f : List Nat) => f.length = r.num_bitcells * 2)
      revs fl := by
  refine (fluxesOf_forall₂ h).imp ?_
  intro r f hrf
  exact readN_length (show readN src.file _ (r.num_bitcells * 2) = some f from hrf)

theorem fluxesOf_bytes {src : Scp} {i : Nat} {revs : List ScpRev}
    {fl : List (List Nat)} (h : fluxesOf src i revs = some fl) :
    ∀ f ∈ fl, Bytes f := by
  induction revs generalizing fl with
  | nil => cases h; simp
  | cons r rs ih =>
    unfold fluxesOf at h
    cases hf : revFlux src i r with
    | none => rw [hf] at h; cases h
    | some f =>
      rw [hf] at h
      cases hfl : fluxesOf src i rs with
      | none => rw [hfl] at h; cases h
      | some fl' =>
        rw [hfl] at h
        cases h
        intro g hg
        rcases List.mem_cons.mp hg with rfl | hg
        · exact readN_bytes hf
        · exact ih hfl g hg

theorem pickSrc_cases {s0 s1 src : Scp} {v : Nat} (h : pickSrc s0 s1 v = some src) :
    src = s0 ∨ src = s1 := by
  unfold pickSrc at h
  by_cases h0 : v = 0
  · rw [if_pos h0] at h
    exact Or.inl (Option.some.inj h).symm
  · rw [if_neg h0] at h
    by_cases h1 : v = 1
    · rw [if_pos h1] at h
      exact Or.inr (Option.some.inj h).symm
    · rw [if_neg h1] at h
      cases h

/-- The track record a slot writes: the selected source's track with its
revolution offsets rewritten relative to the track's own position. -/
def rewriteTrack (tr : ScpTrack) (pos : Nat) (fl : List (List Nat)) : ScpTrack :=
  { tr with revs := revsRewrite (pos + (writeTrack tr).length) pos tr.revs fl }

/-- Inversion of `slotPlan` at a slot source 0 populates. -/
theorem slotPlan_inv {s0 s1 : Scp} {sel : List Nat} {i pos : Nat}
    {o : Option (ScpTrack × List (List Nat))}
    (h : slotPlan s0 s1 sel i pos = .ok o)
    (hpres : s0.tracks.getD i none ≠ none) :
    ∃ src tr0 fl, pickSrc s0 s1 (sel.getD i 0) = some src ∧
      src.tracks.getD i none = some tr0 ∧
      fluxesOf src i tr0.revs = some fl ∧
      o = some (rewriteTrack tr0 pos fl, fl) := by
  unfold slotPlan at h
  cases h0 : s0.tracks.getD i none with
  | none => exact absurd h0 hpres
  | some tr_ =>
    rw [h0] at h
    replace h : (match pickSrc s0 s1 (sel.getD i 0) with
      | none => Except.error MergeErr.panic
      | some src =>
        match src.tracks.getD i none with
        | none => Except.error MergeErr.panic
        | some tr =>
          match fluxesOf src i tr.revs with
          | none => Except.error MergeErr.ioError
          | some fl => Except.ok (some (rewriteTrack tr pos fl, fl))) =
        Except.ok o := h
    cases hpick : pickSrc s0 s1 (sel.getD i 0) with
    | none => rw [hpick] at h; cases h
    | some src =>
      simp only [hpick] at h
      cases hsrc : src.tracks.getD i none with
      | none => simp only [hsrc] at h; cases h
      | some tr0 =>
        simp only [hsrc] at h
        cases hfl : fluxesOf src i tr0.revs with
        | none => simp only [hfl] at h; cases h
        | some fl =>
          simp only [hfl] at h
          exact ⟨src, tr0, fl, rfl, hsrc, hfl, (Except.ok.inj h).symm⟩

/-- Inversion of `slotPlan` at a slot source 0 lacks. -/
theorem slotPlan_inv_absent {s0 s1 : Scp} {sel : List Nat} {i pos : Nat}
    {o : Option (ScpTrack × List (List Nat))}
    (h : slotPlan s0 s1 sel i pos = .ok o)
    (habs : s0.tracks.getD i none = none) : o = none := by
  unfold slotPlan at h
  rw [habs] at h
  exact (Except.ok.inj h).symm

theorem plan_slot_present {s0 s1 : Scp} {sel : List Nat} {p : Plan}
    (hp : planFold s0 s1 sel 168 = .ok p) {j : Nat} (hj : j < 168)
    (hpres : s0.tracks.getD j none ≠ none) :
    ∃ src tr0 fl,
      pickSrc s0 s1 (sel.getD j 0) = some src ∧
      src.tracks.getD j none = some tr0 ∧
      fluxesOf src j tr0.revs = some fl ∧
      p.getD j none = some (slotPos p j, rewriteTrack tr0 (slotPos p j) fl, fl) := by
  obtain ⟨o, ho, he⟩ := planFold_slot hp hj
  obtain ⟨src, tr0, fl, h1, h2, h3, h4⟩ := slotPlan_inv ho hpres
  subst h4
  exact ⟨src, tr0, fl, h1, h2, h3, by rw [he]; rfl⟩

theorem plan_slot_absent {s0 s1 : Scp} {sel : List Nat} {p : Plan}
    (hp : planFold s0 s1 sel 168 = .ok p) {j : Nat} (hj : j < 168)
    (habs : s0.tracks.getD j none = none) :
    p.getD j none = none := by
  obtain ⟨o, ho, he⟩ := planFold_slot hp hj
  rw [slotPlan_inv_absent ho habs] at he
  simpa using he

theorem blockOf_length_pos (e : Nat × ScpTrack × List (List Nat)) :
    0 < (blockOf e).length := by
  unfold blockOf
  rw [List.length_append, writeTrack_length]
  omega

/-- The block of a present slot lies entirely inside the output. -/
theorem slot_block_inside {s0 : Scp} {p : Plan} {j : Nat}
    {e : Nat × ScpTrack × List (List Nat)}
    (hlen : s0.header.track_data_headers.length = 168)
    (he : p.getD j none = some e) (hj : j < p.length) :
    slotPos p j + (blockOf e).length + (bodyOf (p.drop (j + 1))).length
      = (outOf s0 p).length := by
  rw [outOf_length _ _ hlen, body_decomp hj, he]
  show slotPos p j + _ + _ = 688 +
    ((bodyOf (p.take j) ++ (bodyOf [some e] ++ bodyOf (p.drop (j + 1)))).length)
  rw [bodyOf_some]
  unfold slotPos
  simp [List.length_append]
  omega

theorem finalHdrs_getD {s0 : Scp} {p : Plan}
    (hlen : s0.header.track_data_headers.length = 168)
    (hplen : p.length = 168) {j : Nat} (hj : j < 168) :
    (finalHdrs s0 p).getD j 0 = planVal (p.getD j none) := by
  unfold finalHdrs
  have := hdrsOf_getD p s0.header.track_data_headers 0 j (by omega)
    (by rw [hlen]; omega)
  simpa using this

theorem hdrsOf_bound {hs : List Nat} (p : Plan) (k : Nat)
    (h : ∀ x ∈ hs, x < 2 ^ 32) :
    ∀ x ∈ hdrsOf hs k p, x < 2 ^ 32 := by
  induction p generalizing hs k with
  | nil => exact h
  | cons o q ih =>
    show ∀ x ∈ hdrsOf (hs.set k (planVal o)) (k + 1) q, x < 2 ^ 32
    refine ih _ ?_
    intro x hx
    rcases List.mem_or_eq_of_mem_set hx with hx | rfl
    · exact h x hx
    · cases o with
      | none => norm_num [planVal]
      | some e => exact Nat.mod_lt _ (by norm_num)

theorem finalHeader_wf {s0 : Scp} (p : Plan) (h0 : s0.header.WF) :
    (finalHeader s0 p).WF := by
  obtain ⟨w1, w2, w3, w4, w5, w6, w7, w8, w9, _, wlen, wball⟩ := h0
  exact ⟨w1, w2, w3, w4, w5, w6, w7, w8, w9,
    Nat.mod_lt _ (by norm_num),
    by rw [show (finalHeader s0 p).track_data_headers = finalHdrs s0 p from rfl,
      finalHdrs_length, wlen],
    hdrsOf_bound p 0 wball⟩

/-- If every non-zero offset of the array points at a decodable track, the
track decoding loop succeeds, and returns per slot exactly what decoding at
that offset returns. -/
theorem loadTracks_build (f : List Nat) (rc : Nat) :
    ∀ offs : List Nat,
    (∀ j, j < offs.length → offs.getD j 0 = 0 ∨
      ∃ tr, parseTrackL rc (f.drop (offs.getD j 0)) = some tr) →
    ∃ ts, loadTracks f rc offs = some ts ∧ ts.length = offs.length ∧
      ∀ j, j < offs.length →
        ((offs.getD j 0 = 0 → ts.getD j none = none) ∧
         (offs.getD j 0 ≠ 0 →
           ts.getD j none = parseTrackL rc (f.drop (offs.getD j 0)))) := by
  intro offs
  induction offs with
  | nil =>
    intro _
    exact ⟨[], rfl, rfl, by intro j hj; simp at hj⟩
  | cons off offs ih =>
    intro hall
    obtain ⟨ts', hts', hlen', hdesc'⟩ := ih (fun j hj => hall (j + 1) (by simpa using hj))
    by_cases hz : off = 0
    · refine ⟨none :: ts', ?_, by simp [hlen'], ?_⟩
      · unfold loadTracks
        rw [if_neg (by simpa using hz), hts']
      · intro j hj
        cases j with
        | zero => exact ⟨fun _ => rfl, fun hne => absurd hz hne⟩
        | succ j => exact hdesc' j (by simpa using hj)
    · rcases hall 0 (by simp) with h0 | ⟨tr, htr⟩
      · exact absurd h0 hz
      · refine ⟨some tr :: ts', ?_, by simp [hlen'], ?_⟩
        · unfold loadTracks
          rw [if_pos (by simpa using hz)]
          show (match parseTrackL rc (f.drop off) with
            | none => none
            | some t =>
              match loadTracks f rc offs with
              | none => none
              | some ts => some (some t :: ts)) = _
          rw [show parseTrackL rc (f.drop off) = some tr from htr, hts']
        · intro j hj
          cases j with
          | zero =>
            refine ⟨fun h => absurd h hz, fun _ => ?_⟩
            show some tr = parseTrackL rc (f.drop off)
            exact htr.symm
          | succ j => exact hdesc' j (by simpa using hj)

theorem readN_at_prefix {F f : List Nat} (rest' : List Nat) {base n : Nat}
    (hdrop : F.drop base = f ++ rest') (hn : f.length = n)
    (hlen : base + n ≤ F.length) (hbytes : Bytes f) :
    readN F base n = some f := by
  unfold readN
  rw [if_pos hlen, hdrop, ← hn, List.take_left, map_mod_of_bytes hbytes]

/-- Reading the flux payloads back through the rewritten offsets recovers
exactly the payloads that were written: revolution `k`'s payload sits at
`pos + (its rewritten offset)` in the file, provided the offsets did not
wrap. -/
theorem fluxesOf_rewrittenRevs
    (F : List Nat) (H : ScpHeader) (tks : List (Option ScpTrack)) (j pos : Nat)
    (hpos : H.track_data_headers.getD j 0 = pos) :
    ∀ (revs : List ScpRev) (fl : List (List Nat)) (base : Nat) (rest : List Nat),
      List.Forall₂ (fun (r : ScpRev) (f : List Nat) =>
        f.length = r.num_bitcells * 2) revs fl →
      (∀ f ∈ fl, Bytes f) →
      pos ≤ base →
      base + fl.flatten.length < pos + 2 ^ 32 →
      F.drop base = fl.flatten ++ rest →
      base + fl.flatten.length ≤ F.length →
      fluxesOf ⟨F, H, tks⟩ j (revsRewrite base pos revs fl) = some fl := by
  intro revs
  induction revs with
  | nil =>
    intro fl base rest hf2 _ _ _ _ _
    cases hf2
    rfl
  | cons r rs ih =>
    intro fl base rest hf2 hbytes hle hwrap hdrop hlen
    cases hf2 with
    | cons hrf hf2' =>
      rename_i f fs
      show fluxesOf _ j ({ r with offset := (base - pos) % 2 ^ 32 } ::
        revsRewrite (base + f.length) pos rs fs) = some (f :: fs)
      have hflat : (f :: fs).flatten = f ++ fs.flatten := rfl
      rw [hflat] at hwrap hdrop hlen
      have hoff : (base - pos) % 2 ^ 32 = base - pos := by
        apply Nat.mod_eq_of_lt
        have : 0 ≤ fs.flatten.length := Nat.zero_le _
        omega
      have hread : revFlux ⟨F, H, tks⟩ j { r with offset := (base - pos) % 2 ^ 32 }
          = some f := by
        show readN F (H.track_data_headers.getD j 0 + (base - pos) % 2 ^ 32)
          (r.num_bitcells * 2) = some f
        rw [hpos, hoff, show pos + (base - pos) = base by omega]
        refine readN_at_prefix (fs.flatten ++ rest) ?_ hrf ?_ ?_
        · rw [hdrop, List.append_assoc]
        · rw [← hrf]
          simp only [List.length_append] at hlen
          omega
        · exact hbytes f (List.mem_cons_self _ _)
      unfold fluxesOf
      simp only [hread]
      rw [ih fs (base + f.length) rest hf2'
        (fun g hg => hbytes g (List.mem_cons_of_mem _ hg))
        (by omega)
        (by simp only [List.length_append] at hwrap; omega)
        (by rw [← List.drop_drop, hdrop, List.append_assoc, List.drop_left])
        (by simp only [List.length_append] at hlen; omega)]

theorem ScpHeader.WF.tdh_length {h : ScpHeader} (w : h.WF) :
    h.track_data_headers.length = 168 := w.2.2.2.2.2.2.2.2.2.2.1

theorem slotPos_ge (p : Plan) (j : Nat) : 688 ≤ slotPos p j := by
  unfold slotPos
  omega

/-- At a present slot of a completed merge, the track header decodes back
from the output at its recorded position, and re-reading the flux payloads
through the rewritten offsets recovers the same payloads — for any track
list attached alongside the output file. -/
theorem slot_track_decodes {s0 s1 : Scp} {sel : List Nat} {p : Plan} {j : Nat}
    {src : Scp} {tr0 : ScpTrack} {fl : List (List Nat)}
    (h0 : s0.WF) (h1 : s1.WF)
    (hrc : s1.header.rev_count = s0.header.rev_count)
    (hp : planFold s0 s1 sel 168 = .ok p) (hj : j < 168)
    (hpick : pickSrc s0 s1 (sel.getD j 0) = some src)
    (hsrc : src.tracks.getD j none = some tr0)
    (hfl : fluxesOf src j tr0.revs = some fl)
    (he : p.getD j none = some (slotPos p j, rewriteTrack tr0 (slotPos p j) fl, fl))
    (hsz : (outOf s0 p).length ≤ 2 ^ 32) :
    parseTrackL s0.header.rev_count ((outOf s0 p).drop (slotPos p j)) =
      some (rewriteTrack tr0 (slotPos p j) fl) ∧
    (∀ tks, fluxesOf (⟨outOf s0 p, finalHeader s0 p, tks⟩ : Scp) j
      (rewriteTrack tr0 (slotPos p j) fl).revs = some fl) ∧
    688 ≤ slotPos p j ∧ slotPos p j < 2 ^ 32 := by
  have hplen := planFold_length hp
  have hlen : s0.header.track_data_headers.length = 168 := h0.1.tdh_length
  have hinside := slot_block_inside hlen he (by omega)
  have hpos688 : 688 ≤ slotPos p j := slotPos_ge p j
  have hblockpos := blockOf_length_pos (slotPos p j, rewriteTrack tr0 (slotPos p j) fl, fl)
  have hposlt : slotPos p j < 2 ^ 32 := by omega
  have hdrop := outOf_drop_slot hlen he (by omega)
  have hrevlen : fl.length = tr0.revs.length := fluxesOf_length hfl
  have htr0wfrc : tr0.WF ∧ tr0.revs.length = s0.header.rev_count := by
    rcases pickSrc_cases hpick with rfl | rfl
    · have hmem : some tr0 ∈ src.tracks := by
        rw [← hsrc]
        exact getD_mem (by rw [h0.2.2.1]; omega) none
      exact h0.2.2.2.2 _ hmem tr0 rfl
    · have hmem : some tr0 ∈ src.tracks := by
        rw [← hsrc]
        exact getD_mem (by rw [h1.2.2.1]; omega) none
      have hw := h1.2.2.2.2 _ hmem tr0 rfl
      exact ⟨hw.1, by rw [hw.2, hrc]⟩
  have htr'len : (rewriteTrack tr0 (slotPos p j) fl).revs.length
      = s0.header.rev_count := by
    show (revsRewrite _ _ tr0.revs fl).length = _
    rw [revsRewrite_length hrevlen, htr0wfrc.2]
  have htr'wf : (rewriteTrack tr0 (slotPos p j) fl).WF :=
    ⟨htr0wfrc.1.1, revsRewrite_wf fl _ _ htr0wfrc.1.2⟩
  have hwtlen : (writeTrack (rewriteTrack tr0 (slotPos p j) fl)).length
      = (writeTrack tr0).length := by
    apply writeTrack_length_eq
    show (revsRewrite _ _ _ _).length = _
    rw [revsRewrite_length hrevlen]
  have hble : (blockOf (slotPos p j, rewriteTrack tr0 (slotPos p j) fl, fl)).length
      = (writeTrack tr0).length + fl.flatten.length := by
    unfold blockOf
    rw [List.length_append]
    show (writeTrack (rewriteTrack tr0 (slotPos p j) fl)).length + _ = _
    rw [hwtlen]
  refine ⟨?_, ?_, hpos688, hposlt⟩
  · rw [hdrop]
    show parseTrackL s0.header.rev_count
      ((writeTrack (rewriteTrack tr0 (slotPos p j) fl) ++ fl.flatten) ++
        bodyOf (p.drop (j + 1))) = _
    rw [List.append_assoc, ← htr'len]
    exact parseTrackL_writeTrack htr'wf _
  · intro tks
    have hposfield : (finalHeader s0 p).track_data_headers.getD j 0 = slotPos p j := by
      show (finalHdrs s0 p).getD j 0 = _
      rw [finalHdrs_getD hlen hplen hj, he]
      show slotPos p j % 2 ^ 32 = slotPos p j
      exact Nat.mod_eq_of_lt hposlt
    show fluxesOf _ j (revsRewrite (slotPos p j + (writeTrack tr0).length)
      (slotPos p j) tr0.revs fl) = some fl
    refine fluxesOf_rewrittenRevs (outOf s0 p) (finalHeader s0 p) tks j (slotPos p j)
      hposfield tr0.revs fl (slotPos p j + (writeTrack tr0).length)
      (bodyOf (p.drop (j + 1))) (fluxesOf_lengths hfl) (fluxesOf_bytes hfl)
      (by omega) (by omega) ?_ (by omega)
    have h1' : (outOf s0 p).drop (slotPos p j + (writeTrack tr0).length)
        = ((outOf s0 p).drop (slotPos p j)).drop ((writeTrack tr0).length) := by
      rw [List.drop_drop]
    rw [h1', hdrop]
    show ((writeTrack (rewriteTrack tr0 (slotPos p j) fl) ++ fl.flatten) ++
      bodyOf (p.drop (j + 1))).drop ((writeTrack tr0).length) = _
    rw [List.append_assoc, ← hwtlen, List.drop_left]

/-- Decoding a merge's output succeeds and returns the final header
together with, per slot, exactly the rewritten track the merge wrote;
re-reading any present slot's flux through the decoded image recovers the
payloads copied from the selected source. -/
theorem load_of_merge {s0 s1 : Scp} {sel : List Nat} {p : Plan}
    (h0 : s0.WF) (h1 : s1.WF)
    (hrc : s1.header.rev_count = s0.header.rev_count)
    (hp : planFold s0 s1 sel 168 = .ok p)
    (hsz : (outOf s0 p).length ≤ 2 ^ 32) :
    ∃ ts, loadScp (outOf s0 p) = .ok ⟨outOf s0 p, finalHeader s0 p, ts⟩ ∧
      ts.length = 168 ∧
      (∀ j, j < 168 → s0.tracks.getD j none = none → ts.getD j none = none) ∧
      (∀ j, j < 168 → ∀ src tr0 fl,
        s0.tracks.getD j none ≠ none →
        pickSrc s0 s1 (sel.getD j 0) = some src →
        src.tracks.getD j none = some tr0 →
        fluxesOf src j tr0.revs = some fl →
        ts.getD j none = some (rewriteTrack tr0 (slotPos p j) fl) ∧
        fluxesOf (⟨outOf s0 p, finalHeader s0 p, ts⟩ : Scp) j
          (rewriteTrack tr0 (slotPos p j) fl).revs = some fl) := by
  have hplen := planFold_length hp
  have hlen : s0.header.track_data_headers.length = 168 := h0.1.tdh_length
  have hHfLen : (finalHeader s0 p).track_data_headers.length = 168 := by
    show (finalHdrs s0 p).length = 168
    rw [finalHdrs_length, hlen]
  have hbuild : ∀ k, k < (finalHeader s0 p).track_data_headers.length →
      (finalHeader s0 p).track_data_headers.getD k 0 = 0 ∨
      ∃ tr, parseTrackL (finalHeader s0 p).rev_count
        ((outOf s0 p).drop ((finalHeader s0 p).track_data_headers.getD k 0))
        = some tr := by
    intro k hk
    rw [hHfLen] at hk
    by_cases habs : s0.tracks.getD k none = none
    · left
      show (finalHdrs s0 p).getD k 0 = 0
      rw [finalHdrs_getD hlen hplen hk, plan_slot_absent hp hk habs]
      rfl
    · right
      obtain ⟨src, tr0, fl, hpick, hsrc, hfl, he⟩ := plan_slot_present hp hk habs
      obtain ⟨hparse, _, _, hposlt⟩ :=
        slot_track_decodes h0 h1 hrc hp hk hpick hsrc hfl he hsz
      refine ⟨rewriteTrack tr0 (slotPos p k) fl, ?_⟩
      have hfield : (finalHeader s0 p).track_data_headers.getD k 0 = slotPos p k := by
        show (finalHdrs s0 p).getD k 0 = _
        rw [finalHdrs_getD hlen hplen hk, he]
        exact Nat.mod_eq_of_lt hposlt
      rw [hfield]
      exact hparse
  obtain ⟨ts, hts, htslen, hdesc⟩ := loadTracks_build (outOf s0 p)
    (finalHeader s0 p).rev_count (finalHeader s0 p).track_data_headers hbuild
  refine ⟨ts, ?_, by rw [htslen, hHfLen], ?_, ?_⟩
  · apply loadScp_eq_ok
    · show parseHeaderL (writeHeader (finalHeader s0 p) ++ bodyOf p) = _
      exact parseHeaderL_writeHeader (finalHeader_wf p h0.1) _
    · show s0.header.bitcell_time = 0
      exact h0.2.1
    · exact hts
  · intro j hj habs
    have hfield : (finalHeader s0 p).track_data_headers.getD j 0 = 0 := by
      show (finalHdrs s0 p).getD j 0 = 0
      rw [finalHdrs_getD hlen hplen hj, plan_slot_absent hp hj habs]
      rfl
    exact (hdesc j (by rw [hHfLen]; omega)).1 hfield
  · intro j hj src tr0 fl hpres hpick hsrc hfl
    obtain ⟨src', tr0', fl', hpick', hsrc', hfl', he'⟩ := plan_slot_present hp hj hpres
    have hsrcEq : src' = src := Option.some.inj (hpick'.symm.trans hpick)
    subst hsrcEq
    have htrEq : tr0' = tr0 := Option.some.inj (hsrc'.symm.trans hsrc)
    subst htrEq
    have hflEq : fl' = fl := Option.some.inj (hfl'.symm.trans hfl)
    subst hflEq
    obtain ⟨hparse, hflux, hpos688, hposlt⟩ :=
      slot_track_decodes h0 h1 hrc hp hj hpick' hsrc' hfl' he' hsz
    have hfield : (finalHeader s0 p).track_data_headers.getD j 0 = slotPos p j := by
      show (finalHdrs s0 p).getD j 0 = _
      rw [finalHdrs_getD hlen hplen hj, he']
      exact Nat.mod_eq_of_lt hposlt
    constructor
    · have hd := (hdesc j (by rw [hHfLen]; omega)).2
      rw [hfield] at hd
      rw [hd (by omega)]
      exact hparse
    · exact hflux ts

/-- C7 (amended): for every successful merge of two well-formed sources
*that agree on `revolution_count`* and whose output fits below the u32
offset bound, decoding the produced output with the image loader succeeds,
and the resulting image holds, per slot, exactly the track the merge wrote:
same track number, same revolution durations and bitcell counts as the
selected source's track, with flux payloads byte-identical to the selected
source's (re-reading them through the decoded image returns the same
payload bytes the merge copied). -/
theorem c7_roundtrip (s0 s1 : Scp) (sel out : List Nat)
    (h0 : s0.WF) (h1 : s1.WF)
    (hrc : s1.header.rev_count = s0.header.rev_count)
    (hm : mergeCore s0 s1 sel = .ok out)
    (hsz : out.length ≤ 2 ^ 32) :
    ∃ s', loadScp out = .ok s' ∧ s'.file = out ∧
      (∀ j, j < 168 → s0.tracks.getD j none = none →
        s'.tracks.getD j none = none) ∧
      (∀ j, j < 168 → ∀ src tr0 fl,
        s0.tracks.getD j none ≠ none →
        pickSrc s0 s1 (sel.getD j 0) = some src →
        src.tracks.getD j none = some tr0 →
        fluxesOf src j tr0.revs = some fl →
        ∃ tr', s'.tracks.getD j none = some tr' ∧
          tr'.track_number = tr0.track_number ∧
          tr'.revs.map ScpRev.duration = tr0.revs.map ScpRev.duration ∧
          tr'.revs.map ScpRev.num_bitcells = tr0.revs.map ScpRev.num_bitcells ∧
          fluxesOf s' j tr'.revs = some fl) := by
  obtain ⟨p, hp, rfl⟩ := mergeCore_ok_plan h0.1.tdh_length hm
  obtain ⟨ts, hload, htslen, habs, hpres⟩ := load_of_merge h0 h1 hrc hp hsz
  refine ⟨⟨outOf s0 p, finalHeader s0 p, ts⟩, hload, rfl, ?_, ?_⟩
  · intro j hj ha
    exact habs j hj ha
  · intro j hj src tr0 fl hne hpick hsrc hfl
    obtain ⟨hts', hflux⟩ := hpres j hj src tr0 fl hne hpick hsrc hfl
    refine ⟨rewriteTrack tr0 (slotPos p j) fl, hts', rfl, ?_, ?_, hflux⟩
    · show (revsRewrite _ _ tr0.revs fl).map ScpRev.duration = _
      exact revsRewrite_map_duration (fluxesOf_length hfl) _ _
    · show (revsRewrite _ _ tr0.revs fl).map ScpRev.num_bitcells = _
      exact revsRewrite_map_num_bitcells (fluxesOf_length hfl) _ _

/-- A two-revolution source (revolution_count 2). -/
def exHeaderA2 : ScpHeader :=
  ⟨2, 0, 2, 0, 83, 0, 0, 0, 0, 0, 688 :: List.replicate 167 0⟩

def exTrackA2 : ScpTrack := ⟨0, [⟨1000, 1, 28⟩, ⟨1001, 1, 30⟩]⟩

def exFileA2 : List Nat := writeHeader exHeaderA2 ++ writeTrack exTrackA2 ++ [1, 2, 3, 4]

/-- A one-revolution source (revolution_count 1). -/
def exHeaderC : ScpHeader :=
  ⟨2, 0, 1, 0, 83, 0, 0, 0, 0, 0, 688 :: List.replicate 167 0⟩

def exTrackC : ScpTrack := ⟨0, [⟨2000, 1, 16⟩]⟩

def exFileC : List Nat := writeHeader exHeaderC ++ writeTrack exTrackC ++ [9, 9]

def exOutMix : List Nat := getOk (run exFileA2 exFileC exSelOne) []

/-- C7 counterexample: both sources are valid (they load fine) but have
different `revolution_count`s (2 vs 1).  Slot 0 is routed to source 1, so
the output's slot-0 track has one revolution record while the output
header's `revolution_count` is 2; decoding the produced file fails. -/
theorem c7_counterexample_revcount_mismatch :
    (loadScp exFileA2).isOk = true ∧ (loadScp exFileC).isOk = true ∧
    run exFileA2 exFileC exSelOne = .ok exOutMix ∧
    loadScp exOutMix = .error .formatError := by
  refine ⟨by rfl, by rfl, by rfl, by rfl⟩

/-- Witness for the amended C7 at a concrete merge. -/
theorem c7_roundtrip_witness :
    ∃ s', loadScp exOutA = .ok s' ∧ s'.file = exOutA ∧
      (∀ j, j < 168 → exScpA.tracks.getD j none = none →
        s'.tracks.getD j none = none) ∧
      (∀ j, j < 168 → ∀ src tr0 fl,
        exScpA.tracks.getD j none ≠ none →
        pickSrc exScpA exScpA (zeroSel.getD j 0) = some src →
        src.tracks.getD j none = some tr0 →
        fluxesOf src j tr0.revs = some fl →
        ∃ tr', s'.tracks.getD j none = some tr' ∧
          tr'.track_number = tr0.track_number ∧
          tr'.revs.map ScpRev.duration = tr0.revs.map ScpRev.duration ∧
          tr'.revs.map ScpRev.num_bitcells = tr0.revs.map ScpRev.num_bitcells ∧
          fluxesOf s' j tr'.revs = some fl) :=
  c7_roundtrip exScpA exScpA zeroSel exOutA (by decide) (by decide) (by rfl)
    (by rfl) (by decide)

/-! ### C6: self-merge idempotence -/

theorem getD_replicate_self (m n : Nat) (a : Nat) :
    (List.replicate m a).getD n a = a := by
  induction m generalizing n with
  | zero => cases n <;> rfl
  | succ m ih =>
    cases n with
    | zero => rfl
    | succ n => exact ih n

theorem slotPlan_absent_eval {s0' s1' : Scp} {sel' : List Nat} {i pos : Nat}
    (h : s0'.tracks.getD i none = none) :
    slotPlan s0' s1' sel' i pos = .ok none := by
  unfold slotPlan
  rw [h]

theorem slotPlan_present_eval {s0' s1' : Scp} {sel' : List Nat} {i pos : Nat}
    {tr : ScpTrack} {fl' : List (List Nat)}
    (hsel : sel'.getD i 0 = 0)
    (htr : s0'.tracks.getD i none = some tr)
    (hfl : fluxesOf s0' i tr.revs = some fl') :
    slotPlan s0' s1' sel' i pos = .ok (some (rewriteTrack tr pos fl', fl')) := by
  unfold slotPlan
  simp only [htr, hsel, pickSrc, if_pos, hfl]
  rfl

/-- Re-running the merge on its own (decoded) output under the default
all-zeros selection reproduces the original plan, prefix by prefix. -/
theorem replan {s0 s1 : Scp} {sel : List Nat} {p : Plan}
    {ts : List (Option ScpTrack)}
    (hp : planFold s0 s1 sel 168 = .ok p)
    (habs : ∀ j, j < 168 → s0.tracks.getD j none = none → ts.getD j none = none)
    (hpres : ∀ j, j < 168 → ∀ src tr0 fl,
        s0.tracks.getD j none ≠ none →
        pickSrc s0 s1 (sel.getD j 0) = some src →
        src.tracks.getD j none = some tr0 →
        fluxesOf src j tr0.revs = some fl →
        ts.getD j none = some (rewriteTrack tr0 (slotPos p j) fl) ∧
        fluxesOf (⟨outOf s0 p, finalHeader s0 p, ts⟩ : Scp) j
          (rewriteTrack tr0 (slotPos p j) fl).revs = some fl) :
    ∀ n, n ≤ 168 →
      planFold (⟨outOf s0 p, finalHeader s0 p, ts⟩ : Scp)
        (⟨outOf s0 p, finalHeader s0 p, ts⟩ : Scp)
        (List.replicate 168 0) n = .ok (p.take n) := by
  have hplen := planFold_length hp
  intro n
  induction n with
  | zero => intro _; rfl
  | succ n ih =>
    intro hn1
    have hn : n ≤ 168 := by omega
    unfold planFold
    rw [ih hn, except_bind_ok]
    have htake := take_succ_getD (show n < p.length by omega) (none :
      Option (Nat × ScpTrack × List (List Nat)))
    by_cases habs0 : s0.tracks.getD n none = none
    · have hts_n : ts.getD n none = none := habs n (by omega) habs0
      rw [slotPlan_absent_eval hts_n]
      show Except.ok _ = Except.ok _
      congr 1
      rw [htake, plan_slot_absent hp (by omega) habs0]
      rfl
    · obtain ⟨src, tr0, fl, hpick, hsrc, hfl, he⟩ :=
        plan_slot_present hp (show n < 168 by omega) habs0
      obtain ⟨hts_n, hflux⟩ := hpres n (by omega) src tr0 fl habs0 hpick hsrc hfl
      have hwtlen : (writeTrack (rewriteTrack tr0 (slotPos p n) fl)).length
          = (writeTrack tr0).length := by
        apply writeTrack_length_eq
        show (revsRewrite _ _ _ _).length = _
        rw [revsRewrite_length (fluxesOf_length hfl)]
      rw [slotPlan_present_eval (getD_replicate_self 168 n 0) hts_n hflux]
      show Except.ok _ = Except.ok _
      congr 1
      rw [htake, he]
      have hpos : 688 + (bodyOf (p.take n)).length = slotPos p n := rfl
      have hidem : rewriteTrack (rewriteTrack tr0 (slotPos p n) fl) (slotPos p n) fl
          = rewriteTrack tr0 (slotPos p n) fl := by
        show ScpTrack.mk (rewriteTrack tr0 (slotPos p n) fl).track_number
          (revsRewrite (slotPos p n +
            (writeTrack (rewriteTrack tr0 (slotPos p n) fl)).length)
            (slotPos p n) (rewriteTrack tr0 (slotPos p n) fl).revs fl)
          = rewriteTrack tr0 (slotPos p n) fl
        rw [hwtlen]
        have hrevs : revsRewrite (slotPos p n + (writeTrack tr0).length)
            (slotPos p n) (rewriteTrack tr0 (slotPos p n) fl).revs fl
            = (rewriteTrack tr0 (slotPos p n) fl).revs := by
          show revsRewrite _ _ (revsRewrite _ _ tr0.revs fl) fl
            = revsRewrite _ _ tr0.revs fl
          exact revsRewrite_idem _ _ _ _
        rw [hrevs]
      rw [show (688 + (bodyOf (p.take n)).length) = slotPos p n from rfl, hidem]
      rfl

theorem outOf_congr (s t : Scp) (p : Plan) (h : finalHeader s p = finalHeader t p) :
    outOf s p = outOf t p := by
  unfold outOf
  rw [h]

theorem finalHeader_congr (s t : Scp) (p : Plan) (h : csHeader s p = csHeader t p) :
    finalHeader s p = finalHeader t p := by
  unfold finalHeader totalOf
  rw [h]

set_option maxHeartbeats 400000 in
/-- C6 (amended, main part): self-merge is idempotent — re-merging a
merge's own decoded output with itself under the default all-zeros
selection reproduces the output file byte for byte, checksum included. -/
theorem c6_selfmerge_idempotent (s0 s1 : Scp) (sel out : List Nat) (s' : Scp)
    (h0 : s0.WF) (h1 : s1.WF)
    (hrc : s1.header.rev_count = s0.header.rev_count)
    (hm : mergeCore s0 s1 sel = .ok out) (hsz : out.length ≤ 2 ^ 32)
    (hload : loadScp out = .ok s') :
    mergeCore s' s' (List.replicate 168 0) = .ok out := by
  obtain ⟨p, hp, rfl⟩ := mergeCore_ok_plan h0.1.tdh_length hm
  obtain ⟨ts, hload', htslen, habs, hpres⟩ := load_of_merge h0 h1 hrc hp hsz
  have hs' : s' = ⟨outOf s0 p, finalHeader s0 p, ts⟩ :=
    Except.ok.inj (hload.symm.trans hload')
  subst hs'
  have hHfLen : (finalHeader s0 p).track_data_headers.length = 168 := by
    show (finalHdrs s0 p).length = 168
    rw [finalHdrs_length, h0.1.tdh_length]
  rw [mergeCore_eq_plan _ _ _ hHfLen,
    replan hp habs hpres 168 (Nat.le_refl 168),
    List.take_of_length_le (by rw [planFold_length hp])]
  have htdh : finalHdrs (⟨outOf s0 p, finalHeader s0 p, ts⟩ : Scp) p
      = finalHdrs s0 p := by
    show hdrsOf (hdrsOf s0.header.track_data_headers 0 p) 0 p
      = hdrsOf s0.header.track_data_headers 0 p
    exact hdrsOf_idem p _ 0
  have hcs : csHeader (⟨outOf s0 p, finalHeader s0 p, ts⟩ : Scp) p
      = csHeader s0 p := by
    unfold csHeader
    rw [htdh]
    rfl
  have hfh : finalHeader (⟨outOf s0 p, finalHeader s0 p, ts⟩ : Scp) p
      = finalHeader s0 p := finalHeader_congr _ _ p hcs
  show Except.ok (outOf (⟨outOf s0 p, finalHeader s0 p, ts⟩ : Scp) p)
      = Except.ok (outOf s0 p)
  rw [outOf_congr _ _ p hfh]

/-- The merge output `exOutA` decoded again (`getOk` default never used). -/
def exScpA2 : Scp := getOk (loadScp exOutA) ⟨[], exHeaderA, []⟩

/-- C6 counterexample: the original file `exFileA` stores checksum 0, which
the loader never verifies; the self-merge recomputes the checksum over the
output bytes and stores 682, so the output does not reproduce the original
file's checksum field. -/
theorem c6_counterexample_stale_checksum :
    loadScp exFileA = .ok exScpA ∧
    mergeCore exScpA exScpA zeroSel = .ok exOutA ∧
    readU32 exFileA 12 = some 0 ∧
    readU32 exOutA 12 = some 682 ∧
    readU32 exOutA 12 ≠ readU32 exFileA 12 := by
  refine ⟨by rfl, by rfl, by rfl, by rfl, by decide⟩

/-- Witness for the amended C6: re-merging the decoded output of the
`exScpA` self-merge reproduces `exOutA` byte for byte. -/
theorem c6_selfmerge_idempotent_witness :
    mergeCore exScpA2 exScpA2 (List.replicate 168 0) = .ok exOutA :=
  c6_selfmerge_idempotent exScpA exScpA zeroSel exOutA exScpA2
    (by decide) (by decide) rfl rfl (by decide) rfl

/-! ### C10: u32 truncation of stream positions past 4 GiB

`track_header_pos as u32` (main.rs:115) and `flux_pos as u32` (main.rs:124)
truncate 64-bit stream positions.  `bigScp` is a valid image whose first
track carries two revolutions of `2^31` bitcells each (`2^32` flux bytes per
revolution), so the merge output exceeds `2^32` bytes and the positions of
everything written after the first track's payloads wrap around. -/

theorem except_map_ok {ε α β : Type} (a : α) (f : α → β) :
    (Except.ok (ε := ε) a).map f = .ok (f a) := rfl

theorem getD_replicate_any {α : Type} (m n : Nat) (a : α) :
    (List.replicate m a).getD n a = a := by
  induction m generalizing n with
  | zero => cases n <;> rfl
  | succ m ih =>
    cases n with
    | zero => rfl
    | succ n => exact ih n

theorem fluxesOf_cons (src : Scp) (i : Nat) (r : ScpRev) (rs : List ScpRev)
    (f : List Nat) (fl : List (List Nat))
    (h1 : revFlux src i r = some f) (h2 : fluxesOf src i rs = some fl) :
    fluxesOf src i (r :: rs) = some (f :: fl) := by
  unfold fluxesOf
  simp only [h1, h2]

theorem revsRewrite_two (pos thp : Nat) (r1 r2 : ScpRev) (f1 f2 : List Nat) :
    revsRewrite pos thp [r1, r2] [f1, f2] =
      [{ r1 with offset := (pos - thp) % 2 ^ 32 },
       { r2 with offset := (pos + f1.length - thp) % 2 ^ 32 }] := rfl

theorem blockOf_eq (e : Nat × ScpTrack × List (List Nat)) :
    blockOf e = writeTrack e.2.1 ++ e.2.2.flatten := rfl

theorem readN_append_replicate (pre : List Nat) (m d n : Nat) (h : d + n ≤ m) :
    readN (pre ++ List.replicate m 0) (pre.length + d) n =
      some (List.replicate n 0) := by
  unfold readN
  rw [if_pos (by rw [List.length_append, List.length_replicate]; omega)]
  rw [drop_append_len, List.drop_replicate, List.take_replicate,
    Nat.min_eq_left (by omega), List.map_replicate]

theorem bodyOf_replicate_none (k : Nat) :
    bodyOf (List.replicate k none) = [] := by
  induction k with
  | zero => rfl
  | succ k ih =>
    rw [List.replicate_succ, bodyOf_cons, bodyOf_none, ih]
    rfl

theorem planFold_absent_ext {s0 s1 : Scp} {sel : List Nat} {m : Nat} {p : Plan}
    (hm : planFold s0 s1 sel m = .ok p)
    (bigTracks_absent : ∀ j, m ≤ j → s0.tracks.getD j none = none) :
    ∀ k, planFold s0 s1 sel (m + k) = .ok (p ++ List.replicate k none) := by
  intro k
  induction k with
  | zero => simpa using hm
  | succ k ih =>
    show (planFold s0 s1 sel (m + k)).bind _ = _
    rw [ih, except_bind_ok]
    simp only [Nat.add_eq]
    rw [slotPlan_absent_eval (bigTracks_absent (m + k) (Nat.le_add_right m k))]
    simp only [except_map_ok, Option.map_none']
    rw [List.append_assoc, ← List.replicate_succ']

def bigTrack0 : ScpTrack := ⟨0, [⟨1000, 2 ^ 31, 56⟩, ⟨1000, 2 ^ 31, 56⟩]⟩

def bigTrack1 : ScpTrack := ⟨1, [⟨1000, 1, 28⟩, ⟨1000, 1, 30⟩]⟩

def bigHeader : ScpHeader :=
  ⟨2, 0, 2, 0, 83, 0, 0, 0, 0, 0, 688 :: 716 :: List.replicate 166 0⟩

def bigFile : List Nat :=
  writeHeader bigHeader ++ writeTrack bigTrack0 ++ writeTrack bigTrack1 ++
    List.replicate (2 ^ 32 + 2) 0

def bigScp : Scp :=
  ⟨bigFile, bigHeader, some bigTrack0 :: some bigTrack1 :: List.replicate 166 none⟩

def bigTrack0R : ScpTrack := ⟨0, [⟨1000, 2 ^ 31, 28⟩, ⟨1000, 2 ^ 31, 28⟩]⟩

def bigTrack1R : ScpTrack := ⟨1, [⟨1000, 1, 28⟩, ⟨1000, 1, 30⟩]⟩

def bigFlux0 : List (List Nat) :=
  [List.replicate (2 ^ 32) 0, List.replicate (2 ^ 32) 0]

def bigFlux1 : List (List Nat) := [[0, 0], [0, 0]]

def bigPlan : Plan :=
  some (688, bigTrack0R, bigFlux0) ::
    some (716 + 2 ^ 33, bigTrack1R, bigFlux1) :: List.replicate 166 none


theorem bigPre_length : (writeHeader bigHeader ++ writeTrack bigTrack0 ++
    writeTrack bigTrack1).length = 744 := by
  rw [List.length_append, List.length_append, writeHeader_length,
    writeTrack_length, writeTrack_length]
  norm_num [bigHeader, bigTrack0, bigTrack1, List.length_replicate]

theorem bigFile_readN : ∀ d n : Nat, d + n ≤ 2 ^ 32 + 2 →
    readN bigFile (744 + d) n = some (List.replicate n 0) := by
  intro d n h
  have h2 := readN_append_replicate (writeHeader bigHeader ++
    writeTrack bigTrack0 ++ writeTrack bigTrack1) (2 ^ 32 + 2) d n h
  rw [bigPre_length] at h2
  exact h2

theorem bigRevFlux0 : revFlux bigScp 0 ⟨1000, 2 ^ 31, 56⟩ =
    some (List.replicate (2 ^ 32) 0) := by
  show readN bigFile (bigScp.header.track_data_headers.getD 0 0 + 56)
    (2 ^ 31 * 2) = _
  rw [show bigScp.header.track_data_headers.getD 0 0 + 56 = 744 + 0 from rfl,
    show (2 : Nat) ^ 31 * 2 = 2 ^ 32 from by norm_num]
  exact bigFile_readN 0 (2 ^ 32) (by norm_num)

theorem bigRevFlux10 : revFlux bigScp 1 ⟨1000, 1, 28⟩ = some (List.replicate 2 0) := by
  show readN bigFile (bigScp.header.track_data_headers.getD 1 0 + 28)
    (1 * 2) = _
  rw [show bigScp.header.track_data_headers.getD 1 0 + 28 = 744 + 0 from rfl,
    show (1 : Nat) * 2 = 2 from by norm_num]
  exact bigFile_readN 0 2 (by norm_num)

theorem bigRevFlux11 : revFlux bigScp 1 ⟨1000, 1, 30⟩ = some (List.replicate 2 0) := by
  show readN bigFile (bigScp.header.track_data_headers.getD 1 0 + 30)
    (1 * 2) = _
  rw [show bigScp.header.track_data_headers.getD 1 0 + 30 = 744 + 2 from rfl,
    show (1 : Nat) * 2 = 2 from by norm_num]
  exact bigFile_readN 2 2 (by norm_num)

theorem bigFluxes0 : fluxesOf bigScp 0 bigTrack0.revs = some bigFlux0 := by
  show fluxesOf bigScp 0 [⟨1000, 2 ^ 31, 56⟩, ⟨1000, 2 ^ 31, 56⟩] =
    some bigFlux0
  rw [fluxesOf_cons _ _ _ _ _ _ bigRevFlux0 (fluxesOf_cons _ _ _ _ _ _ bigRevFlux0
    (show fluxesOf bigScp 0 [] = some [] from rfl))]
  rfl

theorem bigFluxes1 : fluxesOf bigScp 1 bigTrack1.revs = some bigFlux1 := by
  show fluxesOf bigScp 1 [⟨1000, 1, 28⟩, ⟨1000, 1, 30⟩] = some bigFlux1
  rw [fluxesOf_cons _ _ _ _ _ _ bigRevFlux10 (fluxesOf_cons _ _ _ _ _ _ bigRevFlux11
    (show fluxesOf bigScp 1 [] = some [] from rfl))]
  rfl

theorem bigTracks_getD0 : bigScp.tracks.getD 0 none = some bigTrack0 := rfl

theorem bigTracks_getD1 : bigScp.tracks.getD 1 none = some bigTrack1 := rfl

theorem bigFlux0_flatten : bigFlux0.flatten = List.replicate (2 ^ 32) 0 ++
    (List.replicate (2 ^ 32) 0 ++ []) := by
  rw [show bigFlux0 = [List.replicate (2 ^ 32) 0, List.replicate (2 ^ 32) 0]
    from rfl, List.flatten_cons, List.flatten_cons, List.flatten_nil]

theorem bigFlux0_flatten_length : bigFlux0.flatten.length = 2 ^ 33 := by
  rw [bigFlux0_flatten, List.length_append, List.length_append, List.length_nil,
    List.length_replicate]
  norm_num

theorem bigRewrite0 : rewriteTrack bigTrack0 688 bigFlux0 = bigTrack0R := by
  show ScpTrack.mk 0 (revsRewrite (688 + (writeTrack bigTrack0).length) 688
    [⟨1000, 2 ^ 31, 56⟩, ⟨1000, 2 ^ 31, 56⟩]
    [List.replicate (2 ^ 32) 0, List.replicate (2 ^ 32) 0]) = bigTrack0R
  rw [show 688 + (writeTrack bigTrack0).length = 716 from rfl, revsRewrite_two]
  simp only [List.length_replicate]
  decide

theorem bigRewrite1 : rewriteTrack bigTrack1 (716 + 2 ^ 33) bigFlux1 = bigTrack1R := by
  show ScpTrack.mk 1 (revsRewrite (716 + 2 ^ 33 + 28) (716 + 2 ^ 33)
    [⟨1000, 1, 28⟩, ⟨1000, 1, 30⟩] [[0, 0], [0, 0]]) = bigTrack1R
  rw [revsRewrite_two]
  decide

theorem bigPlanFold1 : planFold bigScp bigScp zeroSel 1 =
    .ok [some (688, bigTrack0R, bigFlux0)] := by
  show (planFold bigScp bigScp zeroSel 0).bind _ = _
  rw [show planFold bigScp bigScp zeroSel 0 = .ok [] from rfl, except_bind_ok]
  rw [slotPlan_present_eval (show zeroSel.getD 0 0 = 0 from rfl) bigTracks_getD0 bigFluxes0]
  simp only [except_map_ok, Option.map_some', List.nil_append]
  rw [show 688 + (bodyOf ([] : Plan)).length = 688 from rfl, bigRewrite0]

theorem blockOf_length (pos : Nat) (tr : ScpTrack) (fl : List (List Nat)) :
    (bodyOf [some (pos, tr, fl)]).length =
      (writeTrack tr).length + fl.flatten.length := by
  rw [bodyOf_some, blockOf_eq, List.length_append]

theorem bigPlanFold2 : planFold bigScp bigScp zeroSel 2 =
    .ok [some (688, bigTrack0R, bigFlux0),
         some (716 + 2 ^ 33, bigTrack1R, bigFlux1)] := by
  show (planFold bigScp bigScp zeroSel 1).bind _ = _
  rw [bigPlanFold1, except_bind_ok]
  have hpos1 : 688 + (bodyOf [some (688, bigTrack0R, bigFlux0)]).length =
      716 + 2 ^ 33 := by
    rw [blockOf_length, show (writeTrack bigTrack0R).length = 28 from rfl,
      bigFlux0_flatten_length]
    norm_num
  rw [hpos1, slotPlan_present_eval (show zeroSel.getD 1 0 = 0 from rfl)
    bigTracks_getD1 bigFluxes1]
  simp only [except_map_ok, Option.map_some']
  rw [bigRewrite1]
  rfl

theorem bigTracks_absent : ∀ j, 2 ≤ j → bigScp.tracks.getD j none = none := by
  intro j hj
  obtain ⟨k, rfl⟩ : ∃ k, j = k + 2 := ⟨j - 2, by omega⟩
  show (List.replicate 166 (none : Option ScpTrack)).getD k none = none
  exact getD_replicate_any 166 k none

theorem bigPlanFold168 : planFold bigScp bigScp zeroSel 168 = .ok bigPlan := by
  have h2 := planFold_absent_ext bigPlanFold2 bigTracks_absent 166
  rw [show (2 + 166 : Nat) = 168 from by norm_num] at h2
  exact h2

theorem bigHeader_tdh_length : bigScp.header.track_data_headers.length = 168 := by
  show (688 :: 716 :: List.replicate 166 0).length = 168
  simp [List.length_replicate]

theorem bigMerge : mergeCore bigScp bigScp zeroSel = .ok (outOf bigScp bigPlan) := by
  rw [mergeCore_eq_plan bigScp bigScp zeroSel bigHeader_tdh_length, bigPlanFold168]
  rfl

theorem bigBody : bodyOf bigPlan = (writeTrack bigTrack0R ++ bigFlux0.flatten) ++
    ((writeTrack bigTrack1R ++ bigFlux1.flatten) ++ []) := by
  rw [show bigPlan = [some (688, bigTrack0R, bigFlux0)] ++
      ([some (716 + 2 ^ 33, bigTrack1R, bigFlux1)] ++ List.replicate 166 none)
    from rfl, bodyOf_append, bodyOf_append, bodyOf_some, bodyOf_some,
    bodyOf_replicate_none]
  rfl

theorem bigBody_length : (bodyOf bigPlan).length = 28 + 2 ^ 33 + 32 := by
  rw [bigBody]
  simp only [List.length_append, List.length_nil, bigFlux0_flatten_length,
    show (writeTrack bigTrack0R).length = 28 from rfl,
    show (writeTrack bigTrack1R).length = 28 from rfl,
    show bigFlux1.flatten.length = 4 from rfl]

theorem bigOut_length : (outOf bigScp bigPlan).length = 748 + 2 ^ 33 := by
  rw [outOf_length bigScp bigPlan bigHeader_tdh_length, bigBody_length]
  norm_num

theorem bigPlan_length : bigPlan.length = 168 := by
  show (some (688, bigTrack0R, bigFlux0) ::
    some (716 + 2 ^ 33, bigTrack1R, bigFlux1) ::
    List.replicate 166 none).length = 168
  simp [List.length_replicate]

theorem bigFinalHdrs_getD1 : (finalHdrs bigScp bigPlan).getD 1 0 = (716 + 2 ^ 33) % 2 ^ 32 := by
  rw [finalHdrs_getD bigHeader_tdh_length bigPlan_length (show (1 : Nat) < 168 by norm_num)]
  rfl

theorem bigWriteHeader_length : (writeHeader (finalHeader bigScp bigPlan)).length = 688 := by
  rw [writeHeader_length,
    show (finalHeader bigScp bigPlan).track_data_headers =
      finalHdrs bigScp bigPlan from rfl, finalHdrs_length, bigHeader_tdh_length]

theorem bigReadU32_tdh1 : readU32 (outOf bigScp bigPlan) 20 =
    some ((716 + 2 ^ 33) % 2 ^ 32) := by
  show readU32 (writeHeader (finalHeader bigScp bigPlan) ++ bodyOf bigPlan)
    (16 + 4 * 1) = _
  rw [readU32_tdh_field _ _ 1 (by
    rw [show (finalHeader bigScp bigPlan).track_data_headers =
      finalHdrs bigScp bigPlan from rfl, finalHdrs_length, bigHeader_tdh_length]
    norm_num)]
  rw [show (finalHeader bigScp bigPlan).track_data_headers =
    finalHdrs bigScp bigPlan from rfl, bigFinalHdrs_getD1]
  decide

theorem bigDrop_trk : (outOf bigScp bigPlan).drop (716 + 2 ^ 33) =
    [84, 82, 75, 1] ++ ((bigTrack1R.revs.map writeRev).flatten ++
      (bigFlux1.flatten ++ [])) := by
  show (writeHeader (finalHeader bigScp bigPlan) ++ bodyOf bigPlan).drop
    (716 + 2 ^ 33) = _
  rw [show (716 + 2 ^ 33) = (writeHeader (finalHeader bigScp bigPlan)).length +
      (28 + 2 ^ 33) from by rw [bigWriteHeader_length]; norm_num,
    drop_append_len, bigBody,
    show (28 + 2 ^ 33 : Nat) =
      (writeTrack bigTrack0R ++ bigFlux0.flatten).length + 0 from by
        rw [List.length_append,
          show (writeTrack bigTrack0R).length = 28 from rfl, bigFlux0_flatten_length]
        norm_num,
    drop_append_len, List.drop_zero,
    show writeTrack bigTrack1R = [84, 82, 75, 1] ++
      (bigTrack1R.revs.map writeRev).flatten from rfl]
  simp [List.append_assoc]

theorem bigReadN_trk : readN (outOf bigScp bigPlan) (716 + 2 ^ 33) 4 =
    some [84, 82, 75, 1] := by
  refine readN_at_prefix ((bigTrack1R.revs.map writeRev).flatten ++
    (bigFlux1.flatten ++ [])) bigDrop_trk rfl ?_ (by decide)
  rw [bigOut_length]
  norm_num

theorem bigWriteTrack0R_split : writeTrack bigTrack0R =
    [84, 82, 75, 0, 232, 3, 0, 0, 0, 0, 0, 128, 28, 0, 0, 0,
     232, 3, 0, 0, 0, 0, 0, 128] ++ le32 28 := by rfl

theorem bigDrop_offsetField : (outOf bigScp bigPlan).drop 712 = le32 28 ++
    (bigFlux0.flatten ++ ((writeTrack bigTrack1R ++ bigFlux1.flatten) ++ [])) := by
  show (writeHeader (finalHeader bigScp bigPlan) ++ bodyOf bigPlan).drop 712 = _
  rw [show (712 : Nat) = (writeHeader (finalHeader bigScp bigPlan)).length + 24
    from by rw [bigWriteHeader_length], drop_append_len, bigBody, List.append_assoc, bigWriteTrack0R_split,
    List.append_assoc,
    show (24 : Nat) = ([84, 82, 75, 0, 232, 3, 0, 0, 0, 0, 0, 128, 28, 0, 0, 0,
      232, 3, 0, 0, 0, 0, 0, 128] : List Nat).length + 0 from rfl,
    drop_append_len, List.drop_zero]

theorem bigReadU32_offsetField : readU32 (outOf bigScp bigPlan) 712 =
    some ((28 + 2 ^ 32) % 2 ^ 32) := by
  unfold readU32
  rw [bigDrop_offsetField, parseU32_le32]
  simp only [Option.map_some']
  decide

/-- C10: stream positions are truncated to 32 bits with an unchecked cast:
for this merge whose output exceeds `2^32` bytes, slot 1's track header is
physically written at byte `716 + 2^33` (the `TRK` magic and track number
are found there) while the output header's entry for slot 1 stores that
position reduced mod `2^32`; likewise track 0's second revolution payload
starts `28 + 2^32` bytes after its track header, but the revolution's
offset field stores that distance reduced mod `2^32`.  Nothing fails: the
wrapped values are silently written. -/
theorem c10_position_truncation_wraps :
    ∃ out, mergeCore bigScp bigScp zeroSel = .ok out ∧
      2 ^ 32 < out.length ∧
      readN out (716 + 2 ^ 33) 4 = some [84, 82, 75, 1] ∧
      readU32 out 20 = some ((716 + 2 ^ 33) % 2 ^ 32) ∧
      (716 + 2 ^ 33) % 2 ^ 32 ≠ 716 + 2 ^ 33 ∧
      readU32 out 712 = some ((28 + 2 ^ 32) % 2 ^ 32) ∧
      (28 + 2 ^ 32) % 2 ^ 32 ≠ 28 + 2 ^ 32 := by
  refine ⟨outOf bigScp bigPlan, bigMerge, by rw [bigOut_length]; norm_num,
    bigReadN_trk, bigReadU32_tdh1, by decide, bigReadU32_offsetField, by decide⟩

